import Mathlib

/-!
Verification of the deployment-orchestration core of `specify_cli`.

This file gives a shallow embedding, in Lean 4, of the orchestration engine:

* `src/specify_cli/utils/dependency_graph.py` — `DependencyGraph` with Kahn's
  algorithm (`get_ordered_resources`), cycle-path reconstruction
  (`_find_cycle_path`), `has_cycle`, and `get_deployment_batches`;
* `src/specify_cli/utils/retry_policies.py` — `ExponentialBackoff.get_delay`
  and the `CircuitBreaker` state machine;
* `src/specify_cli/validation/resource_deployer_simple.py` — `ResourceDeployer`
  (`deploy_resources`, `_deploy_single`, `_rollback_deployments`) with the
  provisioning backend abstracted as an oracle and provision/delete calls
  recorded in an event trace;
* `src/specify_cli/validation/fix_orchestrator.py` — `FixOrchestrator`
  (`attempt_fix`, `_classify_errors`, `_dispatch_fixes`,
  `reset_circuit_breaker`);
* `src/specify_cli/validation/validation_session.py` — the test/fix loop of
  `ValidationSession._run_testing_and_fixing_stages` and the success flag
  set by `ValidationSession.run`.

Python dicts/sets are modelled by association lists / lists without
duplicates; Python's unbounded `while` loops are modelled with an explicit
fuel argument, and every theorem that touches such a loop proves the fuel
sufficient on the states the source can reach.  Machine integers are `Nat`
or `Int`; `time.time()` timestamps and float delays are rationals.
Raised exceptions become `Except` values.
-/

namespace SpecifyCli

/-! ## Dependency graph (`utils/dependency_graph.py`)

The Python class stores `self.graph : node -> [dependent nodes]`,
`self.reverse_graph : node -> [dependency nodes]` and `self.nodes : Set[str]`.
We model the two dicts as association lists and the node set as a list
without duplicates; the list order stands for Python's set/dict iteration
order.  Node identifiers are kept generic (`α` with decidable equality);
the source instantiates them with `str`. -/

structure DependencyGraph (α : Type) where
  nodes : List α
  graph : List (α × List α)
  reverse_graph : List (α × List α)

variable {α : Type} [DecidableEq α]

/-- Dict lookup with `[]` default (the dicts of a well-formed graph have
exactly `nodes` as keys, so on the keys the source actually indexes this
agrees with Python's `self.graph[node]`). -/
def lookupAdj (l : List (α × List α)) (a : α) : List α :=
  (((l.find? (fun p => p.1 = a)).map Prod.snd).getD [])

/-- `self.graph[node]`: the dependents of `node`. -/
def DependencyGraph.dependents (g : DependencyGraph α) (a : α) : List α :=
  lookupAdj g.graph a

/-- `get_dependencies(node)` = `self.reverse_graph.get(node, [])`. -/
def DependencyGraph.get_dependencies (g : DependencyGraph α) (a : α) : List α :=
  lookupAdj g.reverse_graph a

/-- The invariants `add_node`/`add_dependency` maintain: the node set has no
duplicates, adjacency lists have no duplicates and stay inside the node set,
and the forward and reverse adjacency are two views of one edge set. -/
def DependencyGraph.WF (g : DependencyGraph α) : Prop :=
  g.nodes.Nodup ∧
  (∀ a ∈ g.nodes, (g.dependents a).Nodup ∧ ∀ b ∈ g.dependents a, b ∈ g.nodes) ∧
  (∀ a ∈ g.nodes, (g.get_dependencies a).Nodup ∧
      ∀ b ∈ g.get_dependencies a, b ∈ g.nodes) ∧
  (∀ a ∈ g.nodes, ∀ b ∈ g.nodes, (b ∈ g.dependents a ↔ a ∈ g.get_dependencies b))

instance (g : DependencyGraph α) : Decidable g.WF := by
  unfold DependencyGraph.WF; infer_instance

/-- A (directed) edge of the graph, from a dependency to one of its
dependents: `add_dependency(node, depends_on)` records `depends_on → node`. -/
def DependencyGraph.EdgeOf (g : DependencyGraph α) (a b : α) : Prop :=
  a ∈ g.nodes ∧ b ∈ g.nodes ∧ b ∈ g.dependents a

instance (g : DependencyGraph α) (a b : α) : Decidable (g.EdgeOf a b) := by
  unfold DependencyGraph.EdgeOf; infer_instance

/-- The graph contains a cycle (a nonempty edge path from some node back to
itself). -/
def DependencyGraph.HasCycleSem (g : DependencyGraph α) : Prop :=
  ∃ x, Relation.TransGen g.EdgeOf x x

/-- The inner `for dependent in self.graph[node]` body of Kahn's algorithm:
decrement the in-degree of each dependent, enqueueing the ones whose
in-degree becomes zero. -/
def relaxAll (ind : α → Int) (queue : List α) : List α → ((α → Int) × List α)
  | [] => (ind, queue)
  | d :: ds =>
      let ind' : α → Int := fun x => if x = d then ind x - 1 else ind x
      let queue' := if ind' d = 0 then queue ++ [d] else queue
      relaxAll ind' queue' ds

/-- The `while queue:` loop of `get_ordered_resources`, with explicit fuel.
Pops FIFO from the queue head, appends to `ordered`, and relaxes the popped
node's dependents.  Returns the final in-degree map together with the order. -/
def kahnLoop (g : DependencyGraph α) :
    Nat → (α → Int) → List α → List α → ((α → Int) × List α)
  | 0, ind, _, ordered => (ind, ordered)
  | fuel + 1, ind, queue, ordered =>
      match queue with
      | [] => (ind, ordered)
      | node :: rest =>
          let p := relaxAll ind rest (g.dependents node)
          kahnLoop g fuel p.1 p.2 (ordered ++ [node])

/-- One step of `_find_cycle_path`'s `while True:` loop.  Walks reverse
dependencies restricted to `nic` (`nodes_in_cycle`) until a node repeats
(`.inr cycle`), hitting a dead end (`.inl path`, handled by the caller's
recursion on `nodes_in_cycle[1:]`), or tripping the defensive `len(path) >
2 * len(nodes_in_cycle)` truncation. -/
def findCycleLoop (g : DependencyGraph α) (nic : List α) :
    Nat → List α → α → (List α ⊕ List α)
  | 0, path, _ => Sum.inr (path.take 10)
  | fuel + 1, path, current =>
      let dependencies := (g.get_dependencies current).filter (fun d => d ∈ nic)
      match dependencies with
      | [] => Sum.inl path
      | next :: _ =>
          if next ∈ path then
            Sum.inr ((path.drop (path.indexOf next)) ++ [next])
          else
            let path' := path ++ [next]
            if path'.length > 2 * nic.length then Sum.inr (path'.take 10)
            else findCycleLoop g nic fuel path' next

/-- `_find_cycle_path(nodes_in_cycle)`. -/
def DependencyGraph.find_cycle_path (g : DependencyGraph α) :
    List α → List α
  | [] => []
  | start :: rest =>
      match findCycleLoop g (start :: rest) (2 * (start :: rest).length + 2)
          [start] start with
      | Sum.inr cycle => cycle
      | Sum.inl path => if rest.length + 1 > 1 then g.find_cycle_path rest else path

/-- `get_ordered_resources()`: Kahn's algorithm.  `.ok order` is the returned
list; `.error path` is the raised `CyclicDependencyError(cycle_path)`. -/
def DependencyGraph.get_ordered_resources (g : DependencyGraph α) :
    Except (List α) (List α) :=
  let ind : α → Int := fun x => ((g.get_dependencies x).length : Int)
  let queue := g.nodes.filter (fun n => decide (ind n = 0))
  let res := kahnLoop g g.nodes.length ind queue []
  let remaining := g.nodes.filter (fun n => decide (0 < res.1 n))
  if remaining.isEmpty then Except.ok res.2
  else Except.error (g.find_cycle_path remaining)

/-- `has_cycle()`: runs `get_ordered_resources` and converts the exception to
a boolean (it can never itself raise). -/
def DependencyGraph.has_cycle (g : DependencyGraph α) : Bool :=
  match g.get_ordered_resources with
  | Except.ok _ => false
  | Except.error _ => true

/-- Errors of `get_deployment_batches`: a propagated
`CyclicDependencyError`, or the `RuntimeError("Unable to form deployment
batch")`. -/
inductive BatchError (α : Type) where
  | cyclic (path : List α)
  | runtime
  deriving DecidableEq

/-- The `while len(deployed) < len(ordered):` loop of
`get_deployment_batches`, with explicit fuel. -/
def batchesLoop (g : DependencyGraph α) (ordered : List α) :
    Nat → List α → Except (BatchError α) (List (List α))
  | 0, _ => Except.error BatchError.runtime
  | fuel + 1, deployed =>
      if deployed.length < ordered.length then
        let batch := ordered.filter (fun r =>
          decide (r ∉ deployed) &&
            (g.get_dependencies r).all (fun d => decide (d ∈ deployed)))
        if batch.isEmpty then Except.error BatchError.runtime
        else (batchesLoop g ordered fuel (deployed ++ batch)).map (batch :: ·)
      else Except.ok []

/-- `get_deployment_batches()`. -/
def DependencyGraph.get_deployment_batches (g : DependencyGraph α) :
    Except (BatchError α) (List (List α)) :=
  match g.get_ordered_resources with
  | Except.error p => Except.error (BatchError.cyclic p)
  | Except.ok ordered => batchesLoop g ordered (ordered.length + 1) []

/-! ### Characterisation of the relaxation fold -/

theorem relaxAll_fst (ind : α → Int) (queue : List α) (ds : List α)
    (hnd : ds.Nodup) (x : α) :
    (relaxAll ind queue ds).1 x = if x ∈ ds then ind x - 1 else ind x := by
  induction ds generalizing ind queue with
  | nil => simp [relaxAll]
  | cons d ds ih =>
      rw [List.nodup_cons] at hnd
      rw [relaxAll, ih _ _ hnd.2]
      by_cases hx : x = d
      · subst hx
        simp [hnd.1]
      · by_cases hmem : x ∈ ds <;> simp [hmem, hx]

theorem relaxAll_snd (ind : α → Int) (queue : List α) (ds : List α)
    (hnd : ds.Nodup) :
    (relaxAll ind queue ds).2
      = queue ++ ds.filter (fun d => decide (ind d - 1 = 0)) := by
  induction ds generalizing ind queue with
  | nil => simp [relaxAll]
  | cons d ds ih =>
      rw [List.nodup_cons] at hnd
      rw [relaxAll, ih _ _ hnd.2]
      have hfc : ds.filter (fun e =>
            decide ((if e = d then ind e - 1 else ind e) - 1 = 0))
          = ds.filter (fun e => decide (ind e - 1 = 0)) := by
        apply List.filter_congr
        intro e he
        have : e ≠ d := fun h => hnd.1 (h ▸ he)
        simp [this]
      rw [hfc]
      by_cases hd : ind d - 1 = 0
      · simp only [List.filter_cons, if_pos rfl, hd]
        simp [List.append_assoc]
      · simp only [List.filter_cons, if_pos rfl, hd]
        simp [hd]

/-- Removing one occurrence (of an element not excluded by `s`) from a
duplicate-free list drops the "not in `s ++ [a]`" filter count by one. -/
theorem length_filter_out_one (l s : List α) (a : α)
    (hnd : l.Nodup) (ha : a ∈ l) (hs : a ∉ s) :
    (l.filter (fun d => decide (d ∉ s ++ [a]))).length + 1
      = (l.filter (fun d => decide (d ∉ s))).length := by
  induction l with
  | nil => cases ha
  | cons b l ih =>
      rw [List.nodup_cons] at hnd
      rcases List.mem_cons.1 ha with hab | hal
      · subst hab
        have h1 : (decide (a ∉ s ++ [a])) = false := by simp
        have h2 : (decide (a ∉ s)) = true := by simp [hs]
        rw [List.filter_cons, List.filter_cons, h1, h2]
        have : l.filter (fun d => decide (d ∉ s ++ [a]))
            = l.filter (fun d => decide (d ∉ s)) := by
          apply List.filter_congr
          intro e he
          have hea : e ≠ a := fun h => hnd.1 (h ▸ he)
          simp [hea]
        rw [this]
        simp
      · have hba : b ≠ a := by
          intro h; exact hnd.1 (h ▸ hal)
        have hcond : (decide (b ∉ s ++ [a])) = (decide (b ∉ s)) := by
          simp [hba]
        rw [List.filter_cons, List.filter_cons, hcond]
        by_cases hbs : b ∉ s
        · have ht : (decide (b ∉ s)) = true := by simp [hbs]
          rw [if_pos ht, if_pos ht]
          simp only [List.length_cons]
          have := ih hnd.2 hal
          omega
        · have hf : ¬ ((decide (b ∉ s)) = true) := by simpa using hbs
          rw [if_neg hf, if_neg hf]
          exact ih hnd.2 hal

/-- If no element of `l` equals `a`, the "not in `s ++ [a]`" filter agrees
with the "not in `s`" filter. -/
theorem filter_notmem_append_singleton_of_not_mem (l s : List α) (a : α)
    (h : a ∉ l) :
    l.filter (fun d => decide (d ∉ s ++ [a]))
      = l.filter (fun d => decide (d ∉ s)) := by
  apply List.filter_congr
  intro e he
  have hea : e ≠ a := fun hh => h (hh ▸ he)
  simp [hea]

/-! ### The loop invariant of Kahn's algorithm -/

/-- Invariant of the `while queue:` loop of `get_ordered_resources`:
`ordered` and `queue` hold distinct nodes; `ind` is the number of
dependencies not yet ordered; the queue holds exactly the unordered nodes of
in-degree zero; and every prefix of `ordered` already contains the
dependencies of the next element. -/
structure KahnInv (g : DependencyGraph α) (ind : α → Int)
    (queue ordered : List α) : Prop where
  ord_nodup : ordered.Nodup
  q_nodup : queue.Nodup
  disj : ∀ x ∈ queue, x ∉ ordered
  ord_sub : ∀ x ∈ ordered, x ∈ g.nodes
  q_sub : ∀ x ∈ queue, x ∈ g.nodes
  deg : ∀ x ∈ g.nodes,
    ind x = (((g.get_dependencies x).filter
      (fun d => decide (d ∉ ordered))).length : Int)
  q_iff : ∀ x ∈ g.nodes, (x ∈ queue ↔ x ∉ ordered ∧ ind x = 0)
  topo : ∀ l₁ x l₂, ordered = l₁ ++ x :: l₂ →
    ∀ d ∈ g.get_dependencies x, d ∈ l₁

theorem KahnInv.deps_sub_of_mem_ordered {g : DependencyGraph α}
    {ind : α → Int} {queue ordered : List α}
    (inv : KahnInv g ind queue ordered) {x : α} (hx : x ∈ ordered) :
    ∀ d ∈ g.get_dependencies x, d ∈ ordered := by
  obtain ⟨s, t, hst⟩ := List.append_of_mem hx
  intro d hd
  have := inv.topo s x t hst d hd
  rw [hst]
  exact List.mem_append_left _ this

theorem KahnInv.deg_zero_of_mem_ordered {g : DependencyGraph α}
    {ind : α → Int} {queue ordered : List α}
    (inv : KahnInv g ind queue ordered) {x : α} (hx : x ∈ ordered)
    (hxn : x ∈ g.nodes) : ind x = 0 := by
  rw [inv.deg x hxn]
  have : (g.get_dependencies x).filter (fun d => decide (d ∉ ordered)) = [] := by
    rw [List.filter_eq_nil]
    intro d hd
    simpa using inv.deps_sub_of_mem_ordered hx d hd
  rw [this]
  rfl

theorem append_singleton_eq_split {l l₁ l₂ : List α} {x b : α}
    (h : l ++ [b] = l₁ ++ x :: l₂) :
    (l₁ = l ∧ x = b ∧ l₂ = []) ∨
      ∃ l₂', l = l₁ ++ x :: l₂' ∧ l₂ = l₂' ++ [b] := by
  rcases List.eq_nil_or_concat l₂ with h2 | ⟨init, lst, h2⟩
  · subst h2
    have hlen : l.length = l₁.length := by
      have := congrArg List.length h
      simp at this
      omega
    obtain ⟨h3, h4⟩ := List.append_inj h hlen
    left
    refine ⟨h3.symm, ?_, rfl⟩
    simpa using h4.symm
  · rw [List.concat_eq_append] at h2
    subst h2
    right
    have h' : l ++ [b] = (l₁ ++ x :: init) ++ [lst] := by
      simpa using h
    have hlen : l.length = (l₁ ++ x :: init).length := by
      have := congrArg List.length h'
      simp only [List.length_append, List.length_cons, List.length_singleton]
        at this ⊢
      omega
    obtain ⟨h3, h4⟩ := List.append_inj h' hlen
    have hb : b = lst := by simpa using h4
    exact ⟨init, h3, by rw [hb]⟩

/-- Popping the queue head and relaxing its dependents preserves the Kahn
invariant. -/
theorem kahnInv_step {g : DependencyGraph α} (hwf : g.WF)
    {ind : α → Int} {node : α} {rest ordered : List α}
    (inv : KahnInv g ind (node :: rest) ordered) :
    KahnInv g (relaxAll ind rest (g.dependents node)).1
      (relaxAll ind rest (g.dependents node)).2 (ordered ++ [node]) := by
  obtain ⟨hnodes_nd, hfwd, hrev, hcons⟩ := hwf
  have hnodeq : node ∈ node :: rest := List.mem_cons_self _ _
  have hnoden : node ∈ g.nodes := inv.q_sub node hnodeq
  have hnodeord : node ∉ ordered := inv.disj node hnodeq
  have hDnd : (g.dependents node).Nodup := (hfwd node hnoden).1
  have hDsub : ∀ d ∈ g.dependents node, d ∈ g.nodes := (hfwd node hnoden).2
  have hrestq : ∀ x ∈ rest, x ∈ node :: rest := fun x hx => List.mem_cons_of_mem _ hx
  have hnodenotrest : node ∉ rest := (List.nodup_cons.1 inv.q_nodup).1
  have hrestnd : rest.Nodup := (List.nodup_cons.1 inv.q_nodup).2
  -- membership in dependents ↔ node is a dependency
  have hdepD : ∀ d ∈ g.nodes, (d ∈ g.dependents node ↔ node ∈ g.get_dependencies d) :=
    fun d hd => hcons node hnoden d hd
  -- every dependent currently has positive in-degree
  have hposD : ∀ d ∈ g.dependents node, (1 : Int) ≤ ind d := by
    intro d hd
    have hdn : d ∈ g.nodes := hDsub d hd
    have hmem : node ∈ (g.get_dependencies d).filter (fun e => decide (e ∉ ordered)) := by
      rw [List.mem_filter]
      exact ⟨(hdepD d hdn).1 hd, by simpa using hnodeord⟩
    have hlen : 0 < ((g.get_dependencies d).filter
        (fun e => decide (e ∉ ordered))).length := List.length_pos.2 (by
      intro h; rw [h] at hmem; cases hmem)
    rw [inv.deg d hdn]
    exact_mod_cast hlen
  -- the freshly enqueued dependents are nowhere yet
  have hfresh : ∀ d ∈ g.dependents node, ind d - 1 = 0 →
      d ∉ ordered ∧ d ≠ node ∧ d ∉ rest := by
    intro d hd h1
    have hdn : d ∈ g.nodes := hDsub d hd
    have hind1 : ind d = 1 := by omega
    refine ⟨?_, ?_, ?_⟩
    · intro hmem
      have := inv.deg_zero_of_mem_ordered hmem hdn
      omega
    · intro h
      subst h
      have := (inv.q_iff d hdn).1 hnodeq
      omega
    · intro hmem
      have := (inv.q_iff d hdn).1 (List.mem_cons_of_mem _ hmem)
      omega
  have hfst : ∀ x, (relaxAll ind rest (g.dependents node)).1 x
      = if x ∈ g.dependents node then ind x - 1 else ind x :=
    relaxAll_fst ind rest _ hDnd
  have hsnd : (relaxAll ind rest (g.dependents node)).2
      = rest ++ (g.dependents node).filter (fun d => decide (ind d - 1 = 0)) :=
    relaxAll_snd ind rest _ hDnd
  have hfiltmem : ∀ x,
      x ∈ (g.dependents node).filter (fun d => decide (ind d - 1 = 0)) ↔
        x ∈ g.dependents node ∧ ind x - 1 = 0 := by
    intro x
    rw [List.mem_filter]
    simp
  constructor
  case ord_nodup =>
    rw [List.nodup_append]
    refine ⟨inv.ord_nodup, List.nodup_singleton _, ?_⟩
    intro a ha hb
    rw [List.mem_singleton] at hb
    subst hb
    exact hnodeord ha
  case q_nodup =>
    rw [hsnd, List.nodup_append]
    refine ⟨hrestnd, List.Nodup.filter _ hDnd, ?_⟩
    intro a ha hb
    rw [hfiltmem] at hb
    exact (hfresh a hb.1 hb.2).2.2 ha
  case disj =>
    intro x hx
    rw [hsnd, List.mem_append] at hx
    rw [List.mem_append, List.mem_singleton]
    rcases hx with hx | hx
    · push_neg
      exact ⟨inv.disj x (hrestq x hx), fun h => hnodenotrest (h ▸ hx)⟩
    · rw [hfiltmem] at hx
      obtain ⟨h1, h2, _⟩ := hfresh x hx.1 hx.2
      push_neg
      exact ⟨h1, h2⟩
  case ord_sub =>
    intro x hx
    rw [List.mem_append, List.mem_singleton] at hx
    rcases hx with hx | hx
    · exact inv.ord_sub x hx
    · exact hx ▸ hnoden
  case q_sub =>
    intro x hx
    rw [hsnd, List.mem_append] at hx
    rcases hx with hx | hx
    · exact inv.q_sub x (hrestq x hx)
    · rw [hfiltmem] at hx
      exact hDsub x hx.1
  case deg =>
    intro x hxn
    rw [hfst]
    by_cases hxD : x ∈ g.dependents node
    · rw [if_pos hxD, inv.deg x hxn]
      have hnodedep : node ∈ g.get_dependencies x := (hdepD x hxn).1 hxD
      have hxnd : (g.get_dependencies x).Nodup := (hrev x hxn).1
      have := length_filter_out_one (g.get_dependencies x) ordered node
        hxnd hnodedep hnodeord
      omega
    · rw [if_neg hxD, inv.deg x hxn]
      have hnodedep : node ∉ g.get_dependencies x := by
        intro h
        exact hxD ((hdepD x hxn).2 h)
      rw [filter_notmem_append_singleton_of_not_mem _ _ _ hnodedep]
  case q_iff =>
    intro x hxn
    rw [hsnd, List.mem_append, hfiltmem, hfst]
    constructor
    · rintro (hx | ⟨hxD, hx1⟩)
      · obtain ⟨hxo, hx0⟩ := (inv.q_iff x hxn).1 (hrestq x hx)
        have hxD : x ∉ g.dependents node := by
          intro h
          have := hposD x h
          omega
        rw [if_neg hxD]
        refine ⟨?_, hx0⟩
        rw [List.mem_append, List.mem_singleton]
        push_neg
        exact ⟨hxo, fun h => hnodenotrest (h ▸ hx)⟩
      · obtain ⟨h1, h2, _⟩ := hfresh x hxD hx1
        rw [if_pos hxD]
        refine ⟨?_, hx1⟩
        rw [List.mem_append, List.mem_singleton]
        push_neg
        exact ⟨h1, h2⟩
    · rintro ⟨hxo, hx0⟩
      rw [List.mem_append, List.mem_singleton] at hxo
      push_neg at hxo
      by_cases hxD : x ∈ g.dependents node
      · rw [if_pos hxD] at hx0
        exact Or.inr ⟨hxD, hx0⟩
      · rw [if_neg hxD] at hx0
        have := (inv.q_iff x hxn).2 ⟨hxo.1, hx0⟩
        rcases List.mem_cons.1 this with h | h
        · exact absurd h hxo.2
        · exact Or.inl h
  case topo =>
    intro l₁ x l₂ hsplit d hd
    rcases append_singleton_eq_split hsplit with ⟨h1, h2, _⟩ | ⟨l₂', h1, _⟩
    · subst h2
      have h0 : ind x = 0 := ((inv.q_iff x hnoden).1 hnodeq).2
      rw [inv.deg x hnoden] at h0
      have hnil : (g.get_dependencies x).filter (fun e => decide (e ∉ ordered)) = [] := by
        have : ((g.get_dependencies x).filter
            (fun e => decide (e ∉ ordered))).length = 0 := by
          exact_mod_cast h0
        exact List.length_eq_zero.1 this
      have : d ∈ ordered := by
        by_contra hdo
        have : d ∈ (g.get_dependencies x).filter (fun e => decide (e ∉ ordered)) := by
          rw [List.mem_filter]
          exact ⟨hd, by simpa using hdo⟩
        rw [hnil] at this
        cases this
      exact h1 ▸ this
    · exact inv.topo l₁ x l₂' h1 d hd

/-- Enough fuel drains the queue: running `kahnLoop` from an invariant state
with `|nodes| - |ordered|` fuel ends in an invariant state with an empty
queue. -/
theorem kahnLoop_spec {g : DependencyGraph α} (hwf : g.WF) :
    ∀ (fuel : Nat) (ind : α → Int) (queue ordered : List α),
      KahnInv g ind queue ordered →
      g.nodes.length - ordered.length ≤ fuel →
      KahnInv g (kahnLoop g fuel ind queue ordered).1 []
        (kahnLoop g fuel ind queue ordered).2 := by
  intro fuel
  induction fuel with
  | zero =>
      intro ind queue ordered inv hfuel
      have hall : ∀ x ∈ g.nodes, x ∈ ordered := by
        intro x hx
        by_contra hxo
        have hsub : (ordered ++ [x]).Nodup := by
          rw [List.nodup_append]
          exact ⟨inv.ord_nodup, List.nodup_singleton _, by
            intro a ha hb
            rw [List.mem_singleton] at hb
            exact hxo (hb ▸ ha)⟩
        have hsubn : ∀ y ∈ ordered ++ [x], y ∈ g.nodes := by
          intro y hy
          rw [List.mem_append, List.mem_singleton] at hy
          rcases hy with hy | hy
          · exact inv.ord_sub y hy
          · exact hy ▸ hx
        have := (List.Nodup.subperm hsub hsubn).length_le
        simp at this
        omega
      have hq : queue = [] := by
        rw [List.eq_nil_iff_forall_not_mem]
        intro x hx
        exact inv.disj x hx (hall x (inv.q_sub x hx))
      subst hq
      exact inv
  | succ fuel ih =>
      intro ind queue ordered inv hfuel
      match queue with
      | [] => exact inv
      | node :: rest =>
          have hstep := kahnInv_step hwf inv
          have hnoden : node ∈ g.nodes := inv.q_sub node (List.mem_cons_self _ _)
          have hlen : g.nodes.length - (ordered ++ [node]).length ≤ fuel := by
            simp only [List.length_append, List.length_singleton]
            omega
          have := ih _ _ _ hstep hlen
          simpa [kahnLoop] using this

/-- What `get_ordered_resources` guarantees when it returns normally:
a duplicate-free enumeration of exactly the node set in which every
element's dependencies occur strictly earlier. -/
theorem ordered_ok_spec {g : DependencyGraph α} (hwf : g.WF) {res : List α}
    (h : g.get_ordered_resources = Except.ok res) :
    res.Nodup ∧ (∀ x, x ∈ res ↔ x ∈ g.nodes) ∧
      (∀ l₁ x l₂, res = l₁ ++ x :: l₂ → ∀ d ∈ g.get_dependencies x, d ∈ l₁) := by
  have inv0 : KahnInv g (fun x => ((g.get_dependencies x).length : Int))
      (g.nodes.filter fun n =>
        decide (((g.get_dependencies n).length : Int) = 0)) [] := by
    constructor
    case ord_nodup => exact List.nodup_nil
    case q_nodup => exact List.Nodup.filter _ hwf.1
    case disj => intro x _ hx; cases hx
    case ord_sub => intro x hx; cases hx
    case q_sub => intro x hx; exact (List.mem_filter.1 hx).1
    case deg =>
        intro x _
        have : (g.get_dependencies x).filter
            (fun d => decide (d ∉ ([] : List α))) = g.get_dependencies x := by
          apply List.filter_eq_self.2
          intro a _
          simp
        rw [this]
    case q_iff =>
        intro x hx
        rw [List.mem_filter]
        simp [hx]
    case topo =>
        intro l₁ x l₂ hsplit
        exact absurd hsplit.symm (List.append_ne_nil_of_right_ne_nil _ (by simp))
  have hinv := kahnLoop_spec hwf g.nodes.length _ _ _ inv0 (by omega)
  rw [DependencyGraph.get_ordered_resources] at h
  set indF := (kahnLoop g g.nodes.length
      (fun x => ((g.get_dependencies x).length : Int))
      (g.nodes.filter fun n =>
        decide (((g.get_dependencies n).length : Int) = 0)) []).1 with hindF
  set resK := (kahnLoop g g.nodes.length
      (fun x => ((g.get_dependencies x).length : Int))
      (g.nodes.filter fun n =>
        decide (((g.get_dependencies n).length : Int) = 0)) []).2 with hresK
  by_cases hemp : (g.nodes.filter (fun n => decide (0 < indF n))).isEmpty
  · rw [if_pos hemp] at h
    rw [Except.ok.injEq] at h
    subst h
    refine ⟨hinv.ord_nodup, ?_, hinv.topo⟩
    intro x
    constructor
    · intro hx; exact hinv.ord_sub x hx
    · intro hx
      by_contra hxr
      have hne : indF x ≠ 0 := by
        intro h0
        exact absurd ((hinv.q_iff x hx).2 ⟨hxr, h0⟩) (List.not_mem_nil x)
      have hge : (0 : Int) ≤ indF x := by
        rw [hinv.deg x hx]
        exact_mod_cast Nat.zero_le _
      have hpos : 0 < indF x := lt_of_le_of_ne hge (Ne.symm hne)
      have : x ∈ g.nodes.filter (fun n => decide (0 < indF n)) := by
        rw [List.mem_filter]
        exact ⟨hx, by simpa using hpos⟩
      rw [List.isEmpty_iff] at hemp
      rw [hemp] at this
      cases this
  · rw [if_neg hemp] at h
    exact Except.noConfusion h

/-- What `get_ordered_resources` guarantees when it raises
`CyclicDependencyError`: the stuck set `remaining` is nonempty, consists of
nodes, each of its members keeps a dependency inside the set, and the raised
cycle path is `_find_cycle_path(remaining)`. -/
theorem ordered_error_spec {g : DependencyGraph α} (hwf : g.WF) {p : List α}
    (h : g.get_ordered_resources = Except.error p) :
    ∃ rem : List α, rem ≠ [] ∧ p = g.find_cycle_path rem ∧
      (∀ y ∈ rem, y ∈ g.nodes) ∧
      (∀ y ∈ rem, ∃ d ∈ g.get_dependencies y, d ∈ rem) := by
  have inv0 : KahnInv g (fun x => ((g.get_dependencies x).length : Int))
      (g.nodes.filter fun n =>
        decide (((g.get_dependencies n).length : Int) = 0)) [] := by
    constructor
    case ord_nodup => exact List.nodup_nil
    case q_nodup => exact List.Nodup.filter _ hwf.1
    case disj => intro x _ hx; cases hx
    case ord_sub => intro x hx; cases hx
    case q_sub => intro x hx; exact (List.mem_filter.1 hx).1
    case deg =>
        intro x _
        have : (g.get_dependencies x).filter
            (fun d => decide (d ∉ ([] : List α))) = g.get_dependencies x := by
          apply List.filter_eq_self.2
          intro a _
          simp
        rw [this]
    case q_iff =>
        intro x hx
        rw [List.mem_filter]
        simp [hx]
    case topo =>
        intro l₁ x l₂ hsplit
        exact absurd hsplit.symm (List.append_ne_nil_of_right_ne_nil _ (by simp))
  have hinv := kahnLoop_spec hwf g.nodes.length _ _ _ inv0 (by omega)
  rw [DependencyGraph.get_ordered_resources] at h
  set indF := (kahnLoop g g.nodes.length
      (fun x => ((g.get_dependencies x).length : Int))
      (g.nodes.filter fun n =>
        decide (((g.get_dependencies n).length : Int) = 0)) []).1 with hindF
  set resK := (kahnLoop g g.nodes.length
      (fun x => ((g.get_dependencies x).length : Int))
      (g.nodes.filter fun n =>
        decide (((g.get_dependencies n).length : Int) = 0)) []).2 with hresK
  by_cases hemp : (g.nodes.filter (fun n => decide (0 < indF n))).isEmpty
  · rw [if_pos hemp] at h
    exact Except.noConfusion h
  · rw [if_neg hemp] at h
    refine ⟨g.nodes.filter (fun n => decide (0 < indF n)), ?_, ?_, ?_, ?_⟩
    · intro hnil
      rw [hnil] at hemp
      simp at hemp
    · rw [Except.error.injEq] at h
      exact h.symm
    · intro y hy
      exact (List.mem_filter.1 hy).1
    · intro y hy
      rw [List.mem_filter] at hy
      obtain ⟨hyn, hypos⟩ := hy
      have hypos' : 0 < indF y := by simpa using hypos
      have hlenpos : 0 < ((g.get_dependencies y).filter
          (fun d => decide (d ∉ resK))).length := by
        have := hinv.deg y hyn
        rw [this] at hypos'
        exact_mod_cast hypos'
      obtain ⟨d, hd⟩ := List.exists_mem_of_length_pos hlenpos
      rw [List.mem_filter] at hd
      obtain ⟨hddep, hdres⟩ := hd
      have hdres' : d ∉ resK := by simpa using hdres
      have hdn : d ∈ g.nodes := (hwf.2.2.1 y hyn).2 d hddep
      refine ⟨d, hddep, ?_⟩
      rw [List.mem_filter]
      refine ⟨hdn, ?_⟩
      have hne : indF d ≠ 0 := by
        intro h0
        exact absurd ((hinv.q_iff d hdn).2 ⟨hdres', h0⟩) (List.not_mem_nil d)
      have hge : (0 : Int) ≤ indF d := by
        rw [hinv.deg d hdn]
        exact_mod_cast Nat.zero_le _
      simpa using lt_of_le_of_ne hge (Ne.symm hne)

/-! ### From a stuck set to a cycle, and cycles versus topological orders -/

/-- A nonempty set of nodes in which everyone keeps an unresolved dependency
inside the set contains a cycle (follow dependencies and apply the
pigeonhole principle). -/
theorem cycle_of_stuck {g : DependencyGraph α} (hwf : g.WF) {S : List α}
    (hne : S ≠ []) (hsub : ∀ y ∈ S, y ∈ g.nodes)
    (hstep : ∀ y ∈ S, ∃ d ∈ g.get_dependencies y, d ∈ S) :
    g.HasCycleSem := by
  obtain ⟨s₀, hs₀⟩ := List.exists_mem_of_ne_nil S hne
  let pick : {y // y ∈ S} → {y // y ∈ S} := fun y =>
    ⟨(hstep y.1 y.2).choose, (hstep y.1 y.2).choose_spec.2⟩
  let u : Nat → {y // y ∈ S} := fun n => Nat.rec ⟨s₀, hs₀⟩ (fun _ prev => pick prev) n
  have hedge : ∀ n, g.EdgeOf (u (n + 1)).1 (u n).1 := by
    intro n
    have hspec := (hstep (u n).1 (u n).2).choose_spec
    have hd : (u (n + 1)).1 = (hstep (u n).1 (u n).2).choose := rfl
    rw [hd]
    have hdn : (hstep (u n).1 (u n).2).choose ∈ g.nodes :=
      hsub _ hspec.2
    have hun : (u n).1 ∈ g.nodes := hsub _ (u n).2
    exact ⟨hdn, hun, (hwf.2.2.2 _ hdn _ hun).2 hspec.1⟩
  have hreach : ∀ j i, i < j → Relation.TransGen g.EdgeOf (u j).1 (u i).1 := by
    intro j
    induction j with
    | zero => intro i hi; omega
    | succ j ih =>
        intro i hi
        rcases Nat.lt_succ_iff_lt_or_eq.1 hi with h | h
        · exact Relation.TransGen.head (hedge j) (ih i h)
        · subst h
          exact Relation.TransGen.single (hedge i)
  have hmaps : ∀ k ∈ (Finset.univ : Finset (Fin (S.length + 1))),
      (u k.1).1 ∈ S.toFinset := by
    intro k _
    rw [List.mem_toFinset]
    exact (u k.1).2
  have hcard : S.toFinset.card <
      (Finset.univ : Finset (Fin (S.length + 1))).card := by
    have := S.toFinset_card_le
    rw [Finset.card_univ, Fintype.card_fin]
    omega
  obtain ⟨i, _, j, _, hij, heq⟩ :=
    Finset.exists_ne_map_eq_of_card_lt_of_maps_to hcard hmaps
  rcases lt_or_gt_of_ne (fun h => hij (Fin.ext h) : (i : Nat) ≠ (j : Nat))
    with hlt | hlt
  · exact ⟨(u i.1).1, heq ▸ hreach j.1 i.1 hlt⟩
  · exact ⟨(u j.1).1, heq ▸ hreach i.1 j.1 hlt⟩

/-- Split a topological order at position `i`. -/
theorem topo_split_to_idx {g : DependencyGraph α} {res : List α}
    (htopo : ∀ l₁ x l₂, res = l₁ ++ x :: l₂ →
      ∀ d ∈ g.get_dependencies x, d ∈ l₁)
    (i : Nat) (hi : i < res.length) (d : α)
    (hd : d ∈ g.get_dependencies (res.get ⟨i, hi⟩)) :
    ∃ j, ∃ hj : j < res.length, j < i ∧ res.get ⟨j, hj⟩ = d := by
  have hsplit : res = res.take i ++ res.get ⟨i, hi⟩ :: res.drop (i + 1) := by
    conv_lhs => rw [← List.take_append_drop i res]
    rw [List.drop_eq_get_cons hi]
  have hmem : d ∈ res.take i := htopo _ _ _ hsplit d hd
  obtain ⟨⟨k, hk⟩, hget⟩ := List.mem_iff_get.1 hmem
  have hk' : k < i ∧ k < res.length := by
    rw [List.length_take] at hk
    omega
  refine ⟨k, hk'.2, hk'.1, ?_⟩
  rw [← hget]
  simp [List.get_eq_getElem, List.getElem_take]

/-- Every element of a set in which everyone has an in-set edge predecessor
stays outside any topologically ordered list. -/
theorem cycle_mem_not_in_topo {g : DependencyGraph α} (hwf : g.WF)
    {res : List α}
    (htopo : ∀ l₁ x l₂, res = l₁ ++ x :: l₂ →
      ∀ d ∈ g.get_dependencies x, d ∈ l₁)
    {c : List α} (hc : ∀ y ∈ c, ∃ p ∈ c, g.EdgeOf p y) :
    ∀ y ∈ c, y ∉ res := by
  by_contra hcon
  push_neg at hcon
  obtain ⟨y, hyc, hyres⟩ := hcon
  have hex : ∃ i, ∃ hi : i < res.length, res.get ⟨i, hi⟩ ∈ c := by
    obtain ⟨⟨i, hi⟩, hget⟩ := List.mem_iff_get.1 hyres
    exact ⟨i, hi, hget ▸ hyc⟩
  classical
  let P : Nat → Prop := fun i => ∃ hi : i < res.length, res.get ⟨i, hi⟩ ∈ c
  have hexP : ∃ i, P i := hex
  obtain ⟨hi₀, hy₀⟩ := Nat.find_spec hexP
  set i₀ := Nat.find hexP with hi₀def
  set y₀ := res.get ⟨i₀, hi₀⟩ with hy₀def
  obtain ⟨p, hpc, hpe⟩ := hc y₀ hy₀
  have hpdep : p ∈ g.get_dependencies y₀ := by
    obtain ⟨hpn, hyn, hyd⟩ := hpe
    exact (hwf.2.2.2 p hpn y₀ hyn).1 hyd
  obtain ⟨j, hj, hji, hget⟩ := topo_split_to_idx htopo i₀ hi₀ p hpdep
  have : P j := ⟨hj, hget ▸ hpc⟩
  exact absurd this (Nat.find_min hexP hji)

/-- Extend a `Chain` by one final edge. -/
theorem chain_snoc {R : α → α → Prop} {a c : α} {l : List α}
    (h : List.Chain R a l) (hc : R ((a :: l).getLast (by simp)) c) :
    List.Chain R a (l ++ [c]) := by
  induction l generalizing a with
  | nil =>
      simp only [List.getLast_singleton] at hc
      exact List.Chain.cons hc List.Chain.nil
  | cons b l ih =>
      rw [List.chain_cons] at h
      rw [List.getLast_cons (by simp)] at hc
      exact List.Chain.cons h.1 (ih h.2 hc)

/-- Unfold a transitive chain into an explicit edge path. -/
theorem transGen_to_chain {R : α → α → Prop} {a b : α}
    (h : Relation.TransGen R a b) :
    ∃ l, l ≠ [] ∧ List.Chain R a l ∧ (a :: l).getLast (by simp) = b := by
  induction h with
  | @single b' hab => exact ⟨[b'], by simp, by simp [hab], by simp⟩
  | @tail b' c' _ hbc ih =>
      obtain ⟨l, hne, hchain, hlast⟩ := ih
      refine ⟨l ++ [c'], by simp, chain_snoc hchain (hlast ▸ hbc), ?_⟩
      exact List.getLast_append_singleton (a :: l)

/-- Along a `Chain`, every element of the tail has an `R`-predecessor in the
full list. -/
theorem chain_all_pred {R : α → α → Prop} {a : α} {l : List α}
    (h : List.Chain R a l) : ∀ y ∈ l, ∃ p ∈ a :: l, R p y := by
  induction h with
  | nil => intro y hy; cases hy
  | @cons a' b' l' hab _ ih =>
      intro y hy
      rcases List.mem_cons.1 hy with hy | hy
      · exact ⟨a', List.mem_cons_self _ _, hy ▸ hab⟩
      · obtain ⟨p, hp, hpr⟩ := ih y hy
        exact ⟨p, List.mem_cons_of_mem _ hp, hpr⟩

/-- A cycle through `x` yields a nonempty list of nodes each of which has an
edge predecessor inside the list. -/
theorem cycle_to_pred_list {g : DependencyGraph α} {x : α}
    (h : Relation.TransGen g.EdgeOf x x) :
    ∃ c : List α, c ≠ [] ∧ (∀ y ∈ c, y ∈ g.nodes) ∧
      (∀ y ∈ c, ∃ p ∈ c, g.EdgeOf p y) := by
  obtain ⟨l, hne, hchain, hlast⟩ := transGen_to_chain h
  refine ⟨x :: l, by simp, ?_, ?_⟩
  · intro y hy
    rcases List.mem_cons.1 hy with hy | hy
    · subst hy
      rcases l with _ | ⟨b, l'⟩
      · exact absurd rfl hne
      · exact (List.chain_cons.1 hchain).1.1
    · obtain ⟨p, _, hpr⟩ := chain_all_pred hchain y hy
      exact hpr.2.1
  · intro y hy
    rcases List.mem_cons.1 hy with hy | hy
    · subst hy
      have hxl : y ∈ l := by
        have hgl : (y :: l).getLast (by simp) ∈ l := by
          rcases l with _ | ⟨b, l'⟩
          · exact absurd rfl hne
          · rw [List.getLast_cons (by simp)]
            exact List.getLast_mem _
        rw [hlast] at hgl
        exact hgl
      exact chain_all_pred hchain y hxl
    · exact chain_all_pred hchain y hy

/-- The head of a chain reaches every element. -/
theorem chain_head_reach {R : α → α → Prop} {a : α} {l : List α}
    (h : List.Chain R a l) : ∀ y ∈ a :: l, Relation.ReflTransGen R a y := by
  induction l generalizing a with
  | nil =>
      intro y hy
      rw [List.mem_singleton] at hy
      exact hy ▸ Relation.ReflTransGen.refl
  | cons b l ih =>
      rw [List.chain_cons] at h
      intro y hy
      rcases List.mem_cons.1 hy with hy | hy
      · exact hy ▸ Relation.ReflTransGen.refl
      · exact Relation.ReflTransGen.head h.1 (ih h.2 y hy)

/-- Every element of a chain reaches the last element. -/
theorem chain_reach_last {R : α → α → Prop} {a : α} {l : List α}
    (h : List.Chain R a l) :
    ∀ x ∈ a :: l, ∀ z, (a :: l).getLast? = some z →
      Relation.ReflTransGen R x z := by
  induction l generalizing a with
  | nil =>
      intro x hx z hz
      rw [List.mem_singleton] at hx
      simp only [List.getLast?_singleton, Option.some.injEq] at hz
      subst hx
      subst hz
      exact Relation.ReflTransGen.refl
  | cons b l ih =>
      rw [List.chain_cons] at h
      intro x hx z hz
      rw [List.getLast?_cons_cons] at hz
      rcases List.mem_cons.1 hx with hx | hx
      · subst hx
        exact Relation.ReflTransGen.head h.1
          (ih h.2 b (List.mem_cons_self _ _) z hz)
      · exact ih h.2 x hx z hz

/-- On a closed chain (`head? = getLast?`, length at least 2) every pair of
elements is joined by a nonempty `R`-path. -/
theorem chain'_cycle_all_pairs {R : α → α → Prop} {l : List α}
    (hch : List.Chain' R l) (hlen : 2 ≤ l.length)
    (hcyc : l.head? = l.getLast?) :
    ∀ x ∈ l, ∀ y ∈ l, Relation.TransGen R x y := by
  match l, hlen with
  | a :: b :: t, _ =>
      have hchain : List.Chain R a (b :: t) := hch
      have hga : (a :: b :: t).getLast? = some a := by
        rw [← hcyc]
        rfl
      have hga' : (b :: t).getLast? = some a := by
        rw [← List.getLast?_cons_cons]
        exact hga
      have hsplit : R a b ∧ List.Chain R b t := List.chain_cons.1 hchain
      have htg : Relation.TransGen R a a :=
        Relation.TransGen.head' hsplit.1
          (chain_reach_last hsplit.2 b (List.mem_cons_self _ _) a hga')
      intro x hx y hy
      have hxa : Relation.ReflTransGen R x a :=
        chain_reach_last hchain x hx a hga
      have hay : Relation.ReflTransGen R a y := chain_head_reach hchain y hy
      exact (Relation.TransGen.trans_right hxa htg).trans_left hay

/-- First index of an element placed after a prefix avoiding it. -/
theorem indexOf_append_cons {pre suf : List α} {a : α} (h : a ∉ pre) :
    (pre ++ a :: suf).indexOf a = pre.length := by
  induction pre with
  | nil => simp
  | cons b pre ih =>
      have hab : b ≠ a := by
        intro hba
        exact h (hba ▸ List.mem_cons_self _ _)
      have hna : a ∉ pre := fun hm => h (List.mem_cons_of_mem _ hm)
      simp only [List.cons_append, List.length_cons]
      rw [List.indexOf_cons_ne _ hab, ih hna]

/-- The walk of `_find_cycle_path` over a stuck set (each member keeps a
dependency inside the set) always ends by revisiting a node, and the cycle
portion it returns links all its members by nonempty edge paths. -/
theorem findCycleLoop_spec {g : DependencyGraph α} (hwf : g.WF)
    {nic : List α}
    (hnicsub : ∀ y ∈ nic, y ∈ g.nodes)
    (hstep : ∀ y ∈ nic, ∃ d ∈ g.get_dependencies y, d ∈ nic) :
    ∀ (fuel : Nat) (path : List α) (current : α),
      path.getLast? = some current →
      path.Nodup → (∀ y ∈ path, y ∈ nic) →
      List.Chain' (fun a b => b ∈ g.get_dependencies a ∧ a ∈ nic ∧ b ∈ nic)
        path →
      nic.length + 1 ≤ fuel + path.length →
      ∃ q, findCycleLoop g nic fuel path current = Sum.inr q ∧ q ≠ [] ∧
        ∀ x ∈ q, ∀ y ∈ q, Relation.TransGen g.EdgeOf x y := by
  have hR₀E : ∀ a b : α,
      (b ∈ g.get_dependencies a ∧ a ∈ nic ∧ b ∈ nic) →
        Function.swap g.EdgeOf a b := by
    intro a b ⟨hdep, ha, hb⟩
    have han : a ∈ g.nodes := hnicsub a ha
    have hbn : b ∈ g.nodes := hnicsub b hb
    exact ⟨hbn, han, (hwf.2.2.2 b hbn a han).2 hdep⟩
  intro fuel
  induction fuel with
  | zero =>
      intro path current _ hnd hsubp _ hfuel
      have := (List.Nodup.subperm hnd hsubp).length_le
      omega
  | succ fuel ih =>
      intro path current hlast hnd hsubp hchain hfuel
      have hcur_path : current ∈ path := List.mem_of_mem_getLast? hlast
      have hcur_nic : current ∈ nic := hsubp current hcur_path
      obtain ⟨d₀, hd₀dep, hd₀nic⟩ := hstep current hcur_nic
      have hdepne : (g.get_dependencies current).filter
          (fun d => decide (d ∈ nic)) ≠ [] := by
        intro hnil
        have : d₀ ∈ (g.get_dependencies current).filter
            (fun d => decide (d ∈ nic)) := by
          rw [List.mem_filter]
          exact ⟨hd₀dep, by simpa using hd₀nic⟩
        rw [hnil] at this
        cases this
      rcases hdeps : (g.get_dependencies current).filter
          (fun d => decide (d ∈ nic)) with _ | ⟨next, ds⟩
      · exact absurd hdeps hdepne
      · have hnextmem : next ∈ (g.get_dependencies current).filter
            (fun d => decide (d ∈ nic)) := by
          rw [hdeps]
          exact List.mem_cons_self _ _
        rw [List.mem_filter] at hnextmem
        have hnextdep : next ∈ g.get_dependencies current := hnextmem.1
        have hnextnic : next ∈ nic := by
          have := hnextmem.2
          simpa using this
        by_cases hmem : next ∈ path
        · -- the revisit branch closes a cycle
          obtain ⟨pre, suf, hpath⟩ := List.append_of_mem hmem
          have hnotpre : next ∉ pre := by
            have hnd' := hpath ▸ hnd
            rw [List.nodup_append] at hnd'
            intro hpre
            exact hnd'.2.2 hpre (List.mem_cons_self _ _)
          have hidx : path.indexOf next = pre.length := by
            rw [hpath]
            exact indexOf_append_cons hnotpre
          have hdrop : path.drop pre.length = next :: suf := by
            rw [hpath]
            exact List.drop_left pre (next :: suf)
          have hq : findCycleLoop g nic (fuel + 1) path current
              = Sum.inr ((next :: suf) ++ [next]) := by
            rw [findCycleLoop]
            rw [hdeps]
            simp only [if_pos hmem]
            rw [hidx, hdrop]
          refine ⟨(next :: suf) ++ [next], hq, by simp, ?_⟩
          have hlast' : (next :: suf).getLast? = some current := by
            rw [hpath] at hlast
            rcases List.eq_nil_or_concat suf with hs | ⟨init, lst, hs⟩
            · subst hs
              simpa using hlast
            · rw [List.concat_eq_append] at hs
              subst hs
              rw [show pre ++ next :: (init ++ [lst])
                  = (pre ++ next :: init) ++ [lst] by simp] at hlast
              rw [List.getLast?_concat] at hlast
              rw [show next :: (init ++ [lst]) = (next :: init) ++ [lst] by simp]
              rw [List.getLast?_concat]
              exact hlast
          have hchain_ns : List.Chain'
              (fun a b => b ∈ g.get_dependencies a ∧ a ∈ nic ∧ b ∈ nic)
              (next :: suf) := by
            rw [hpath] at hchain
            exact (List.chain'_append.1 hchain).2.1
          have hchain_q : List.Chain'
              (fun a b => b ∈ g.get_dependencies a ∧ a ∈ nic ∧ b ∈ nic)
              ((next :: suf) ++ [next]) := by
            rw [List.chain'_append]
            refine ⟨hchain_ns, List.chain'_singleton _, ?_⟩
            intro x hx y hy
            rw [hlast'] at hx
            simp only [List.head?_cons, Option.mem_def, Option.some.injEq] at hx hy
            subst hx
            subst hy
            exact ⟨hnextdep, hcur_nic, hnextnic⟩
          have hpairs := chain'_cycle_all_pairs hchain_q
            (by simp) (by rw [List.getLast?_concat]; simp)
          intro x hx y hy
          have := hpairs y hy x hx
          have hmono := Relation.TransGen.mono hR₀E this
          exact Relation.transGen_swap.1 hmono
        · -- extend the walk
          have hndext : (path ++ [next]).Nodup := by
            rw [List.nodup_append]
            exact ⟨hnd, List.nodup_singleton _, by
              intro a ha hb
              rw [List.mem_singleton] at hb
              exact hmem (hb ▸ ha)⟩
          have hsubext : ∀ y ∈ path ++ [next], y ∈ nic := by
            intro y hy
            rw [List.mem_append, List.mem_singleton] at hy
            rcases hy with hy | hy
            · exact hsubp y hy
            · exact hy ▸ hnextnic
          have hchainext : List.Chain'
              (fun a b => b ∈ g.get_dependencies a ∧ a ∈ nic ∧ b ∈ nic)
              (path ++ [next]) := by
            rw [List.chain'_append]
            refine ⟨hchain, List.chain'_singleton _, ?_⟩
            intro x hx y hy
            rw [hlast] at hx
            simp only [List.head?_cons, Option.mem_def, Option.some.injEq] at hx hy
            subst hx
            subst hy
            exact ⟨hnextdep, hcur_nic, hnextnic⟩
          have hlenle : (path ++ [next]).length ≤ nic.length :=
            (List.Nodup.subperm hndext hsubext).length_le
          have hnogo : ¬ ((path ++ [next]).length > 2 * nic.length) := by
            omega
          have hrec := ih (path ++ [next]) next
            (List.getLast?_concat _) hndext hsubext hchainext
            (by simp only [List.length_append, List.length_singleton]; omega)
          obtain ⟨q, hq, hqne, hqpairs⟩ := hrec
          refine ⟨q, ?_, hqne, hqpairs⟩
          rw [findCycleLoop]
          rw [hdeps]
          simp only [if_neg hmem, if_neg hnogo]
          exact hq

/-- `_find_cycle_path` applied to a stuck set returns a nonempty path whose
members are all joined to each other by nonempty edge paths (in particular,
each lies on a cycle). -/
theorem find_cycle_path_spec {g : DependencyGraph α} (hwf : g.WF)
    {rem : List α} (hne : rem ≠ [])
    (hsub : ∀ y ∈ rem, y ∈ g.nodes)
    (hstep : ∀ y ∈ rem, ∃ d ∈ g.get_dependencies y, d ∈ rem) :
    g.find_cycle_path rem ≠ [] ∧
      ∀ x ∈ g.find_cycle_path rem, ∀ y ∈ g.find_cycle_path rem,
        Relation.TransGen g.EdgeOf x y := by
  rcases rem with _ | ⟨start, rest⟩
  · exact absurd rfl hne
  · have hstart : start ∈ start :: rest := List.mem_cons_self _ _
    obtain ⟨q, hq, hqne, hqpairs⟩ := findCycleLoop_spec hwf hsub hstep
      (2 * (start :: rest).length + 2) [start] start rfl
      (List.nodup_singleton _)
      (by intro y hy; rw [List.mem_singleton] at hy; exact hy ▸ hstart)
      (List.chain'_singleton _)
      (by simp only [List.length_cons, List.length_singleton]; omega)
    rw [DependencyGraph.find_cycle_path, hq]
    exact ⟨hqne, hqpairs⟩

/-! ### The batching loop -/

/-- The first element of `l` outside `s` splits `l` with a prefix inside
`s`. -/
theorem exists_first_not_mem {l s : List α} (h : ∃ x ∈ l, x ∉ s) :
    ∃ l₁ x l₂, l = l₁ ++ x :: l₂ ∧ x ∉ s ∧ ∀ y ∈ l₁, y ∈ s := by
  induction l with
  | nil =>
      obtain ⟨x, hx, _⟩ := h
      cases hx
  | cons a l ih =>
      by_cases ha : a ∈ s
      · have h' : ∃ x ∈ l, x ∉ s := by
          obtain ⟨x, hx, hxs⟩ := h
          rcases List.mem_cons.1 hx with hx | hx
          · exact absurd ha (hx ▸ hxs)
          · exact ⟨x, hx, hxs⟩
        obtain ⟨l₁, x, l₂, heq, hxs, hpre⟩ := ih h'
        refine ⟨a :: l₁, x, l₂, by rw [heq, List.cons_append], hxs, ?_⟩
        intro y hy
        rcases List.mem_cons.1 hy with hy | hy
        · exact hy ▸ ha
        · exact hpre y hy
      · exact ⟨[], a, l, rfl, ha, by intro y hy; cases hy⟩

theorem mem_take_flatten {bs : List (List α)} {i : Nat} {d : α}
    (h : d ∈ (bs.take i).flatten) :
    ∃ j, ∃ hj : j < bs.length, j < i ∧ d ∈ bs.get ⟨j, hj⟩ := by
  rw [List.mem_flatten] at h
  obtain ⟨l, hl, hd⟩ := h
  obtain ⟨⟨k, hk⟩, hget⟩ := List.mem_iff_get.1 hl
  have hk' : k < i ∧ k < bs.length := by
    rw [List.length_take] at hk
    omega
  refine ⟨k, hk'.2, hk'.1, ?_⟩
  have : (bs.take i).get ⟨k, hk⟩ = bs.get ⟨k, hk'.2⟩ := by
    simp [List.get_eq_getElem, List.getElem_take]
  rw [← this, hget]
  exact hd

/-- Full specification of the `while` loop of `get_deployment_batches`,
run from a partial `deployed` set: it returns waves that are nonempty,
pairwise fresh, cover the rest of `ordered`, and only ever schedule a node
after all of its dependencies. -/
theorem batchesLoop_spec {g : DependencyGraph α} {ordered : List α}
    (hnd : ordered.Nodup)
    (htopo : ∀ l₁ x l₂, ordered = l₁ ++ x :: l₂ →
      ∀ d ∈ g.get_dependencies x, d ∈ l₁) :
    ∀ (fuel : Nat) (deployed : List α),
      deployed.Nodup → (∀ x ∈ deployed, x ∈ ordered) →
      ordered.length - deployed.length < fuel →
      ∃ bs, batchesLoop g ordered fuel deployed = Except.ok bs ∧
        (deployed ++ bs.flatten).Nodup ∧
        (∀ x ∈ ordered, x ∈ deployed ∨ x ∈ bs.flatten) ∧
        (∀ x ∈ bs.flatten, x ∈ ordered) ∧
        (∀ b ∈ bs, b ≠ []) ∧
        (∀ i, ∀ hi : i < bs.length, ∀ x ∈ bs.get ⟨i, hi⟩,
          ∀ d ∈ g.get_dependencies x, d ∈ deployed ++ (bs.take i).flatten) ∧
        (∀ m₁ x m₂, bs.flatten = m₁ ++ x :: m₂ →
          ∀ d ∈ g.get_dependencies x, d ∈ deployed ++ m₁) := by
  intro fuel
  induction fuel with
  | zero =>
      intro deployed _ _ hfuel
      omega
  | succ fuel ih =>
      intro deployed hdnd hdsub hfuel
      by_cases hcond : deployed.length < ordered.length
      · -- the loop body runs
        have hexists : ∃ x ∈ ordered, x ∉ deployed := by
          by_contra hall
          push_neg at hall
          have hsub : ∀ x ∈ ordered, x ∈ deployed := hall
          have := (List.Nodup.subperm hnd hsub).length_le
          omega
        obtain ⟨l₁, x₀, l₂, hsplit, hx₀d, hpre⟩ := exists_first_not_mem hexists
        have hx₀o : x₀ ∈ ordered := by
          rw [hsplit]
          exact List.mem_append_right _ (List.mem_cons_self _ _)
        set batch := ordered.filter (fun r =>
          decide (r ∉ deployed) &&
            (g.get_dependencies r).all (fun d => decide (d ∈ deployed)))
          with hbatch
        have hx₀b : x₀ ∈ batch := by
          rw [hbatch, List.mem_filter]
          refine ⟨hx₀o, ?_⟩
          rw [Bool.and_eq_true]
          constructor
          · simpa using hx₀d
          · rw [List.all_eq_true]
            intro d hd
            have := htopo l₁ x₀ l₂ hsplit d hd
            simpa using hpre d this
        have hbne : ¬ batch.isEmpty := by
          rcases hb : batch with _ | _
          · rw [hb] at hx₀b
            cases hx₀b
          · simp [hb]
        -- facts about the batch
        have hbmem : ∀ y ∈ batch, y ∈ ordered ∧ y ∉ deployed ∧
            ∀ d ∈ g.get_dependencies y, d ∈ deployed := by
          intro y hy
          rw [hbatch, List.mem_filter, Bool.and_eq_true] at hy
          refine ⟨hy.1, by simpa using hy.2.1, ?_⟩
          have := hy.2.2
          rw [List.all_eq_true] at this
          intro d hd
          simpa using this d hd
        have hbnd : batch.Nodup := List.Nodup.filter _ hnd
        have hdnd' : (deployed ++ batch).Nodup := by
          rw [List.nodup_append]
          exact ⟨hdnd, hbnd, fun a ha hb => (hbmem a hb).2.1 ha⟩
        have hdsub' : ∀ x ∈ deployed ++ batch, x ∈ ordered := by
          intro x hx
          rcases List.mem_append.1 hx with hx | hx
          · exact hdsub x hx
          · exact (hbmem x hx).1
        have hblen : 0 < batch.length := by
          rcases hb : batch with _ | _
          · rw [hb] at hx₀b
            cases hx₀b
          · simp
        have hfuel' : ordered.length - (deployed ++ batch).length < fuel := by
          have h1 : (deployed ++ batch).length
              = deployed.length + batch.length := List.length_append _ _
          have h2 := (List.Nodup.subperm hdnd' hdsub').length_le
          omega
        obtain ⟨bs', hbs', hnd'', hcompl, hsubo, hbne', hidx, hflat⟩ :=
          ih (deployed ++ batch) hdnd' hdsub' hfuel'
        refine ⟨batch :: bs', ?_, ?_, ?_, ?_, ?_, ?_, ?_⟩
        · rw [batchesLoop, if_pos hcond, ← hbatch, if_neg hbne, hbs']
          rfl
        · rw [List.flatten_cons, ← List.append_assoc]
          exact hnd''
        · intro x hx
          rcases hcompl x hx with hx' | hx'
          · rcases List.mem_append.1 hx' with hx'' | hx''
            · exact Or.inl hx''
            · exact Or.inr (by
                rw [List.flatten_cons, List.mem_append]
                exact Or.inl hx'')
          · exact Or.inr (by
              rw [List.flatten_cons, List.mem_append]
              exact Or.inr hx')
        · intro x hx
          rw [List.flatten_cons, List.mem_append] at hx
          rcases hx with hx | hx
          · exact (hbmem x hx).1
          · exact hsubo x hx
        · intro b hb
          rcases List.mem_cons.1 hb with hb | hb
          · subst hb
            intro hnil
            rw [hnil] at hblen
            simp at hblen
          · exact hbne' b hb
        · intro i hi x hx d hd
          match i with
          | 0 =>
              have := (hbmem x hx).2.2 d hd
              simp only [List.take_zero, List.flatten_nil, List.append_nil]
              exact this
          | i + 1 =>
              have hi' : i < bs'.length := by
                simpa using hi
              have hx' : x ∈ bs'.get ⟨i, hi'⟩ := by
                simpa using hx
              have := hidx i hi' x hx' d hd
              rw [List.take_succ_cons, List.flatten_cons]
              rw [List.mem_append] at this ⊢
              rcases this with h | h
              · rcases List.mem_append.1 h with h' | h'
                · exact Or.inl h'
                · exact Or.inr (List.mem_append_left _ h')
              · exact Or.inr (List.mem_append_right _ h)
        · intro m₁ x m₂ hm d hd
          rw [List.flatten_cons] at hm
          rcases List.append_eq_append_iff.1 hm with ⟨a', ha1, ha2⟩ | ⟨c', hc1, hc2⟩
          · have hthis := hflat a' x m₂ ha2 d hd
            rw [ha1, ← List.append_assoc]
            exact hthis
          · rcases c' with _ | ⟨c₀, c''⟩
            · -- x :: m₂ starts the flattened tail
              simp only [List.nil_append] at hc2
              rw [List.append_nil] at hc1
              have hthis := hflat [] x m₂ (by simpa using hc2.symm) d hd
              rw [List.append_nil] at hthis
              rw [← hc1]
              exact hthis
            · have hc₀ : c₀ = x := by
                have := congrArg List.head? hc2
                simpa using this.symm
              subst hc₀
              have hxb : c₀ ∈ batch := by
                rw [hc1]
                exact List.mem_append_right _ (List.mem_cons_self _ _)
              have := (hbmem c₀ hxb).2.2 d hd
              exact List.mem_append_left _ this
      · -- the loop exits
        refine ⟨[], ?_, ?_, ?_, ?_, ?_, ?_, ?_⟩
        · rw [batchesLoop, if_neg hcond]
        · simpa using hdnd
        · intro x hx
          left
          by_contra hxd
          have hsub : (deployed ++ [x]).Nodup := by
            rw [List.nodup_append]
            exact ⟨hdnd, List.nodup_singleton _, by
              intro a ha hb
              rw [List.mem_singleton] at hb
              exact hxd (hb ▸ ha)⟩
          have hsubn : ∀ y ∈ deployed ++ [x], y ∈ ordered := by
            intro y hy
            rcases List.mem_append.1 hy with hy | hy
            · exact hdsub y hy
            · rw [List.mem_singleton] at hy
              exact hy ▸ hx
          have := (List.Nodup.subperm hsub hsubn).length_le
          simp at this
          omega
        · intro x hx
          cases hx
        · intro b hb
          cases hb
        · intro i hi
          simp at hi
        · intro m₁ x m₂ hm
          exact absurd hm.symm (List.append_ne_nil_of_right_ne_nil _ (by simp))

/-! ### The graph claims -/

/-- A successful topological sort excludes any cycle. -/
theorem not_hasCycle_of_ok {g : DependencyGraph α} (hwf : g.WF) {res : List α}
    (h : g.get_ordered_resources = Except.ok res) : ¬ g.HasCycleSem := by
  rintro ⟨x, hx⟩
  obtain ⟨c, hcne, hcn, hcpred⟩ := cycle_to_pred_list hx
  have hok := ordered_ok_spec hwf h
  have hnotin := cycle_mem_not_in_topo hwf hok.2.2 hcpred
  obtain ⟨y, hy⟩ := List.exists_mem_of_ne_nil c hcne
  exact hnotin y hy ((hok.2.1 y).2 (hcn y hy))

/-- C1.  For every acyclic (well-formed) dependency graph,
`get_ordered_resources()` succeeds with a sequence that lists every node of
the graph exactly once, and for every edge (dependency → dependent) the
dependency's index is strictly smaller than the dependent's index: each
element's dependencies occur at strictly earlier positions. -/
theorem claim_C1_ordered_resources_topological {g : DependencyGraph α}
    (hwf : g.WF) (hacyc : ¬ g.HasCycleSem) :
    ∃ res, g.get_ordered_resources = Except.ok res ∧
      res.Perm g.nodes ∧
      ∀ i : Fin res.length, ∀ d ∈ g.get_dependencies (res.get i),
        ∃ j : Fin res.length, (j : Nat) < (i : Nat) ∧ res.get j = d := by
  rcases h : g.get_ordered_resources with p | res
  · obtain ⟨rem, hne, _, hsub, hstep⟩ := ordered_error_spec hwf h
    exact absurd (cycle_of_stuck hwf hne hsub hstep) hacyc
  · obtain ⟨hnd, hmem, htopo⟩ := ordered_ok_spec hwf h
    refine ⟨res, rfl, (List.perm_ext_iff_of_nodup hnd hwf.1).2 hmem, ?_⟩
    intro i d hd
    obtain ⟨j, hj, hji, hget⟩ := topo_split_to_idx htopo i.1 i.2 d hd
    exact ⟨⟨j, hj⟩, hji, hget⟩

/-- The worked example of the specification: `C` depends on `B`, which
depends on `A`. -/
def gExample : DependencyGraph String :=
  { nodes := ["A", "B", "C"]
    graph := [("A", ["B"]), ("B", ["C"]), ("C", [])]
    reverse_graph := [("A", []), ("B", ["A"]), ("C", ["B"])] }

/-- The cyclic variant of the worked example: additionally `A` depends on
`C`. -/
def gCycExample : DependencyGraph String :=
  { nodes := ["A", "B", "C"]
    graph := [("A", ["B"]), ("B", ["C"]), ("C", ["A"])]
    reverse_graph := [("A", ["C"]), ("B", ["A"]), ("C", ["B"])] }

/-- Witness for C1 on the specification's worked example. -/
theorem claim_C1_witness :
    ∃ res, gExample.get_ordered_resources = Except.ok res ∧
      res.Perm gExample.nodes ∧
      ∀ i : Fin res.length, ∀ d ∈ gExample.get_dependencies (res.get i),
        ∃ j : Fin res.length, (j : Nat) < (i : Nat) ∧ res.get j = d :=
  claim_C1_ordered_resources_topological (by decide)
    (not_hasCycle_of_ok (by decide)
      (rfl : gExample.get_ordered_resources = Except.ok ["A", "B", "C"]))

/-- C2.  For every acyclic (well-formed) dependency graph,
`get_deployment_batches()` succeeds and partitions the node set into a
sequence of disjoint nonempty batches whose concatenation is a valid
topological order, and every dependency of a node sits in a strictly
earlier batch. -/
theorem claim_C2_deployment_batches {g : DependencyGraph α}
    (hwf : g.WF) (hacyc : ¬ g.HasCycleSem) :
    ∃ bs, g.get_deployment_batches = Except.ok bs ∧
      bs.flatten.Perm g.nodes ∧
      List.Pairwise List.Disjoint bs ∧
      (∀ b ∈ bs, b ≠ []) ∧
      (∀ i : Fin bs.flatten.length,
        ∀ d ∈ g.get_dependencies (bs.flatten.get i),
          ∃ j : Fin bs.flatten.length, (j : Nat) < (i : Nat) ∧
            bs.flatten.get j = d) ∧
      (∀ i, ∀ hi : i < bs.length, ∀ x ∈ bs.get ⟨i, hi⟩,
        ∀ d ∈ g.get_dependencies x,
          ∃ j, ∃ hj : j < bs.length, j < i ∧ d ∈ bs.get ⟨j, hj⟩) := by
  rcases h : g.get_ordered_resources with p | res
  · obtain ⟨rem, hne, _, hsub, hstep⟩ := ordered_error_spec hwf h
    exact absurd (cycle_of_stuck hwf hne hsub hstep) hacyc
  · obtain ⟨hnd, hmem, htopo⟩ := ordered_ok_spec hwf h
    obtain ⟨bs, hbs, hndf, hcompl, hsubo, hbne, hidx, hflat⟩ :=
      batchesLoop_spec hnd htopo (res.length + 1) [] List.nodup_nil
        (by intro x hx; cases hx) (by omega)
    have hres : g.get_deployment_batches = Except.ok bs := by
      rw [DependencyGraph.get_deployment_batches, h]
      exact hbs
    have hfnd : bs.flatten.Nodup := by
      simpa using hndf
    have hfmem : ∀ x, x ∈ bs.flatten ↔ x ∈ g.nodes := by
      intro x
      constructor
      · intro hx
        exact (hmem x).1 (hsubo x hx)
      · intro hx
        rcases hcompl x ((hmem x).2 hx) with hc | hc
        · cases hc
        · exact hc
    have hftopo : ∀ m₁ x m₂, bs.flatten = m₁ ++ x :: m₂ →
        ∀ d ∈ g.get_dependencies x, d ∈ m₁ := by
      intro m₁ x m₂ hm d hd
      have := hflat m₁ x m₂ hm d hd
      simpa using this
    refine ⟨bs, hres, (List.perm_ext_iff_of_nodup hfnd hwf.1).2 hfmem,
      ((List.nodup_flatten).1 hfnd).2, hbne, ?_, ?_⟩
    · intro i d hd
      obtain ⟨j, hj, hji, hget⟩ := topo_split_to_idx hftopo i.1 i.2 d hd
      exact ⟨⟨j, hj⟩, hji, hget⟩
    · intro i hi x hx d hd
      have := hidx i hi x hx d hd
      rw [List.nil_append] at this
      exact mem_take_flatten this

/-- Witness for C2 on the specification's worked example. -/
theorem claim_C2_witness :
    ∃ bs, gExample.get_deployment_batches = Except.ok bs ∧
      bs.flatten.Perm gExample.nodes ∧
      List.Pairwise List.Disjoint bs ∧
      (∀ b ∈ bs, b ≠ []) ∧
      (∀ i : Fin bs.flatten.length,
        ∀ d ∈ gExample.get_dependencies (bs.flatten.get i),
          ∃ j : Fin bs.flatten.length, (j : Nat) < (i : Nat) ∧
            bs.flatten.get j = d) ∧
      (∀ i, ∀ hi : i < bs.length, ∀ x ∈ bs.get ⟨i, hi⟩,
        ∀ d ∈ gExample.get_dependencies x,
          ∃ j, ∃ hj : j < bs.length, j < i ∧ d ∈ bs.get ⟨j, hj⟩) :=
  claim_C2_deployment_batches (by decide)
    (not_hasCycle_of_ok (by decide)
      (rfl : gExample.get_ordered_resources = Except.ok ["A", "B", "C"]))

/-- C3.  On every well-formed graph containing a cycle,
`get_ordered_resources()` raises `CyclicDependencyError` and the reported
cycle path is nonempty and consists only of nodes that are mutually
reachable (each lies on a cycle); and `has_cycle()` — which is total, it
converts the exception into a boolean and never raises — returns `true`
exactly when `get_ordered_resources()` fails. -/
theorem claim_C3_cycle_detection {g : DependencyGraph α} (hwf : g.WF) :
    (g.HasCycleSem →
      ∃ p, g.get_ordered_resources = Except.error p ∧ p ≠ [] ∧
        ∀ x ∈ p, ∀ y ∈ p, Relation.TransGen g.EdgeOf x y) ∧
    (g.has_cycle = true ↔ ∃ p, g.get_ordered_resources = Except.error p) := by
  constructor
  · intro hcyc
    rcases h : g.get_ordered_resources with p | res
    · obtain ⟨rem, hne, hp, hsub, hstep⟩ := ordered_error_spec hwf h
      obtain ⟨hpne, hppairs⟩ := find_cycle_path_spec hwf hne hsub hstep
      exact ⟨p, rfl, hp ▸ hpne, hp ▸ hppairs⟩
    · exact absurd hcyc (not_hasCycle_of_ok hwf h)
  · rw [DependencyGraph.has_cycle]
    rcases h : g.get_ordered_resources with p | res
    · simp
    · constructor
      · intro hfalse
        cases hfalse
      · rintro ⟨p, hp⟩
        cases hp

/-- Witness for C3 on the cyclic variant of the worked example. -/
theorem claim_C3_witness :
    (gCycExample.HasCycleSem →
      ∃ p, gCycExample.get_ordered_resources = Except.error p ∧ p ≠ [] ∧
        ∀ x ∈ p, ∀ y ∈ p, Relation.TransGen gCycExample.EdgeOf x y) ∧
    (gCycExample.has_cycle = true ↔
      ∃ p, gCycExample.get_ordered_resources = Except.error p) :=
  claim_C3_cycle_detection (by decide)

/-! ## Retry policies (`utils/retry_policies.py`)

Float delays and `time.time()` timestamps are modelled as rationals;
`random.uniform(-jitter_amount, jitter_amount)` is modelled by an explicit
parameter `u` for the drawn offset, which theorems restrict to the draw's
support when it matters. -/

structure ExponentialBackoff where
  base_delay : Rat
  max_delay : Rat
  max_attempts : Nat
  jitter : Bool
  deriving DecidableEq

/-- `ExponentialBackoff.get_delay(attempt)`: `base_delay * 2 ** attempt`,
capped at `max_delay`, plus the jitter offset `u` when enabled, clamped to
be non-negative. -/
def ExponentialBackoff.get_delay (p : ExponentialBackoff) (u : Rat)
    (attempt : Nat) : Rat :=
  let delay := p.base_delay * 2 ^ attempt
  let delay2 := min delay p.max_delay
  let delay3 := if p.jitter then delay2 + u else delay2
  max 0 delay3

/-- Circuit breaker states (`CircuitState`). -/
inductive CircuitState where
  | closed
  | opened
  | halfOpen
  deriving DecidableEq

/-- Result of one `CircuitBreaker.call`: either the call was rejected with
`CircuitBreakerError` (the guarded function was *not* invoked), or the
guarded function ran and succeeded/failed. -/
inductive CallResult where
  | rejected
  | executed (ok : Bool)
  deriving DecidableEq

structure CircuitBreaker where
  failure_threshold : Nat
  recovery_timeout : Rat
  success_threshold : Nat
  state : CircuitState
  failure_count : Nat
  success_count : Nat
  last_failure_time : Option Rat
  deriving DecidableEq

/-- `CircuitBreaker._on_success`. -/
def CircuitBreaker.on_success (cb : CircuitBreaker) : CircuitBreaker :=
  if cb.state = CircuitState.halfOpen then
    let sc := cb.success_count + 1
    if cb.success_threshold ≤ sc then
      { cb with state := CircuitState.closed, failure_count := 0,
                success_count := 0 }
    else { cb with success_count := sc }
  else if cb.state = CircuitState.closed then
    { cb with failure_count := 0 }
  else cb

/-- `CircuitBreaker._on_failure` (`now` is `time.time()`). -/
def CircuitBreaker.on_failure (cb : CircuitBreaker) (now : Rat) :
    CircuitBreaker :=
  let cb1 := { cb with failure_count := cb.failure_count + 1,
                       last_failure_time := some now }
  if cb1.state = CircuitState.halfOpen then
    { cb1 with state := CircuitState.opened, success_count := 0 }
  else if cb1.state = CircuitState.closed then
    if cb1.failure_threshold ≤ cb1.failure_count then
      { cb1 with state := CircuitState.opened }
    else cb1
  else cb1

/-- `CircuitBreaker.call`, for a guarded function whose outcome is `ok` and
a call made at time `now`.  The open-state gate reproduces the source's
`if self.last_failure_time:` truthiness test exactly: both `None` and the
float `0.0` fail it. -/
def CircuitBreaker.call (cb : CircuitBreaker) (now : Rat) (ok : Bool) :
    CallResult × CircuitBreaker :=
  let gate : Option CircuitBreaker :=
    if cb.state = CircuitState.opened then
      match cb.last_failure_time with
      | some t =>
          if t ≠ 0 then
            if cb.recovery_timeout ≤ now - t then
              some { cb with state := CircuitState.halfOpen,
                             success_count := 0 }
            else none
          else some cb
      | none => some cb
    else some cb
  match gate with
  | none => (CallResult.rejected, cb)
  | some cb' =>
      if ok then (CallResult.executed true, cb'.on_success)
      else (CallResult.executed false, cb'.on_failure now)

/-- `CircuitBreaker.reset`. -/
def CircuitBreaker.reset (cb : CircuitBreaker) : CircuitBreaker :=
  { cb with state := CircuitState.closed, failure_count := 0,
            success_count := 0, last_failure_time := none }

/-- A sequence of calls, returning the individual results and the final
breaker state. -/
def CircuitBreaker.runTrace (cb : CircuitBreaker) :
    List (Rat × Bool) → List CallResult × CircuitBreaker
  | [] => ([], cb)
  | (t, ok) :: rest =>
      let p := cb.call t ok
      let q := p.2.runTrace rest
      (p.1 :: q.1, q.2)

/-- C8.  For every attempt number, the backoff delay is non-negative (for
any jitter draw), and — with jitter disabled — it is non-decreasing in the
attempt number, capped by `max_delay`, and exactly equals
`min(base_delay * 2 ** attempt, max_delay)`.  (`base_delay` and `max_delay`
are non-negative, as in every configuration the source constructs.) -/
theorem claim_C8_backoff_delay (p : ExponentialBackoff) (u : Rat) (n : Nat)
    (hb : 0 ≤ p.base_delay) (hm : 0 ≤ p.max_delay) :
    0 ≤ p.get_delay u n ∧
    (p.jitter = false →
      p.get_delay u n ≤ p.get_delay u (n + 1) ∧
      p.get_delay u n ≤ p.max_delay ∧
      p.get_delay u n = min (p.base_delay * 2 ^ n) p.max_delay) := by
  have hpow : (0 : Rat) ≤ p.base_delay * 2 ^ n :=
    mul_nonneg hb (by positivity)
  have hminn : (0 : Rat) ≤ min (p.base_delay * 2 ^ n) p.max_delay :=
    le_min hpow hm
  refine ⟨le_max_left _ _, ?_⟩
  intro hj
  rw [ExponentialBackoff.get_delay, ExponentialBackoff.get_delay]
  simp only [hj, if_false, Bool.false_eq_true]
  have heqn : max 0 (min (p.base_delay * 2 ^ n) p.max_delay)
      = min (p.base_delay * 2 ^ n) p.max_delay := max_eq_right hminn
  have hpow' : (0 : Rat) ≤ p.base_delay * 2 ^ (n + 1) :=
    mul_nonneg hb (by positivity)
  have heqn' : max 0 (min (p.base_delay * 2 ^ (n + 1)) p.max_delay)
      = min (p.base_delay * 2 ^ (n + 1)) p.max_delay :=
    max_eq_right (le_min hpow' hm)
  rw [heqn, heqn']
  refine ⟨?_, min_le_right _ _, rfl⟩
  apply min_le_min_right
  apply mul_le_mul_of_nonneg_left _ hb
  apply pow_le_pow_right (by norm_num)
  omega

/-- Witness for C8 at the default configuration, jitter disabled. -/
theorem claim_C8_witness :
    (0 : Rat) ≤ (ExponentialBackoff.mk 1 60 3 false).get_delay 0 2 ∧
    ((ExponentialBackoff.mk 1 60 3 false).jitter = false →
      (ExponentialBackoff.mk 1 60 3 false).get_delay 0 2 ≤
        (ExponentialBackoff.mk 1 60 3 false).get_delay 0 3 ∧
      (ExponentialBackoff.mk 1 60 3 false).get_delay 0 2 ≤
        (ExponentialBackoff.mk 1 60 3 false).max_delay ∧
      (ExponentialBackoff.mk 1 60 3 false).get_delay 0 2 =
        min ((ExponentialBackoff.mk 1 60 3 false).base_delay * 2 ^ 2)
          (ExponentialBackoff.mk 1 60 3 false).max_delay) :=
  claim_C8_backoff_delay (ExponentialBackoff.mk 1 60 3 false) 0 2
    (by norm_num) (by norm_num)

/-! ### Circuit breaker lemmas -/

theorem call_closed_exec (cb : CircuitBreaker)
    (h : cb.state = CircuitState.closed) (now : Rat) (ok : Bool) :
    cb.call now ok = (CallResult.executed ok,
      if ok then cb.on_success else cb.on_failure now) := by
  rw [CircuitBreaker.call]
  simp only [h]
  rcases ok with _ | _ <;> simp

theorem call_halfOpen_exec (cb : CircuitBreaker)
    (h : cb.state = CircuitState.halfOpen) (now : Rat) (ok : Bool) :
    cb.call now ok = (CallResult.executed ok,
      if ok then cb.on_success else cb.on_failure now) := by
  rw [CircuitBreaker.call]
  simp only [h]
  rcases ok with _ | _ <;> simp

theorem closed_failures_aux :
    ∀ (ts : List Rat) (cb : CircuitBreaker),
      cb.state = CircuitState.closed →
      cb.failure_count + ts.length = cb.failure_threshold → ts ≠ [] →
      (cb.runTrace (ts.map fun t => (t, false))).1
          = List.replicate ts.length (CallResult.executed false) ∧
        (cb.runTrace (ts.map fun t => (t, false))).2.state
          = CircuitState.opened := by
  intro ts
  induction ts with
  | nil => intro cb _ _ hne; exact absurd rfl hne
  | cons t ts ih =>
      intro cb hst hcount _
      have hcall := call_closed_exec cb hst t false
      have hfail : cb.on_failure t =
          if cb.failure_threshold ≤ cb.failure_count + 1 then
            { cb with failure_count := cb.failure_count + 1,
                      last_failure_time := some t,
                      state := CircuitState.opened }
          else
            { cb with failure_count := cb.failure_count + 1,
                      last_failure_time := some t } := by
        rw [CircuitBreaker.on_failure]
        simp only [hst]
        by_cases hth : cb.failure_threshold ≤ cb.failure_count + 1 <;>
          simp [hth]
      have hcall2 : cb.call t false
          = (CallResult.executed false, cb.on_failure t) := by
        rw [hcall]
        simp
      simp only [List.map_cons, CircuitBreaker.runTrace, hcall2]
      rcases ts with _ | ⟨t', ts'⟩
      · have hth : cb.failure_threshold ≤ cb.failure_count + 1 := by
          simp at hcount
          omega
        rw [hfail, if_pos hth]
        simp [CircuitBreaker.runTrace]
      · have hth : ¬ cb.failure_threshold ≤ cb.failure_count + 1 := by
          simp at hcount
          omega
        rw [hfail, if_neg hth]
        have := ih { cb with failure_count := cb.failure_count + 1,
                             last_failure_time := some t }
          hst (by simp at hcount ⊢; omega) (by simp)
        constructor
        · have h1 := this.1
          simp only [List.length_cons, List.replicate_succ] at h1 ⊢
          rw [h1]
        · simpa using this.2

theorem halfOpen_successes_aux :
    ∀ (ts : List Rat) (cb : CircuitBreaker),
      cb.state = CircuitState.halfOpen →
      cb.success_count + ts.length = cb.success_threshold → ts ≠ [] →
      (cb.runTrace (ts.map fun t => (t, true))).2.state
          = CircuitState.closed ∧
        (cb.runTrace (ts.map fun t => (t, true))).2.failure_count = 0 ∧
        (cb.runTrace (ts.map fun t => (t, true))).2.success_count = 0 := by
  intro ts
  induction ts with
  | nil => intro cb _ _ hne; exact absurd rfl hne
  | cons t ts ih =>
      intro cb hst hcount _
      have hcall := call_halfOpen_exec cb hst t true
      have hsucc : cb.on_success =
          if cb.success_threshold ≤ cb.success_count + 1 then
            { cb with state := CircuitState.closed, failure_count := 0,
                      success_count := 0 }
          else { cb with success_count := cb.success_count + 1 } := by
        rw [CircuitBreaker.on_success]
        simp only [hst]
        by_cases hth : cb.success_threshold ≤ cb.success_count + 1 <;>
          simp [hth]
      have hcall2 : cb.call t true
          = (CallResult.executed true, cb.on_success) := by
        rw [hcall]
        simp
      simp only [List.map_cons, CircuitBreaker.runTrace, hcall2]
      rcases ts with _ | ⟨t', ts'⟩
      · have hth : cb.success_threshold ≤ cb.success_count + 1 := by
          simp at hcount
          omega
        rw [hsucc, if_pos hth]
        simp [CircuitBreaker.runTrace]
      · have hth : ¬ cb.success_threshold ≤ cb.success_count + 1 := by
          simp at hcount
          omega
        rw [hsucc, if_neg hth]
        have := ih { cb with success_count := cb.success_count + 1 }
          hst (by simp at hcount ⊢; omega) (by simp)
        simpa using this

/-- C4.  The circuit breaker state machine: (a) from Closed with a clean
failure counter, `failure_threshold` consecutive failed calls all invoke the
guarded function and leave the breaker Open; (b) while Open, a call before
`recovery_timeout` has elapsed since the (positive) last failure time is
rejected with `CircuitBreakerError` without invoking the guarded function
and without changing any state; (c) once `recovery_timeout` has elapsed,
the next call transitions the state to Half-Open (resetting the success
counter) before executing the guarded function; (d) in Half-Open with a
clean success counter, `success_threshold` consecutive successes close the
breaker with both counters reset; (e) any failure in Half-Open transitions
immediately back to Open. -/
theorem claim_C4_circuit_breaker (cb : CircuitBreaker) :
    (∀ ts : List Rat, cb.state = CircuitState.closed →
      cb.failure_count = 0 → ts.length = cb.failure_threshold →
      0 < cb.failure_threshold →
      (cb.runTrace (ts.map fun t => (t, false))).1
          = List.replicate ts.length (CallResult.executed false) ∧
        (cb.runTrace (ts.map fun t => (t, false))).2.state
          = CircuitState.opened) ∧
    (∀ (now : Rat) (ok : Bool) (t : Rat), cb.state = CircuitState.opened →
      cb.last_failure_time = some t → 0 < t →
      now - t < cb.recovery_timeout →
      cb.call now ok = (CallResult.rejected, cb)) ∧
    (∀ (now : Rat) (ok : Bool) (t : Rat), cb.state = CircuitState.opened →
      cb.last_failure_time = some t → 0 < t →
      cb.recovery_timeout ≤ now - t →
      cb.call now ok = (CallResult.executed ok,
        if ok then
          ({ cb with state := CircuitState.halfOpen,
                     success_count := 0 }).on_success
        else
          ({ cb with state := CircuitState.halfOpen,
                     success_count := 0 }).on_failure now)) ∧
    (∀ ts : List Rat, cb.state = CircuitState.halfOpen →
      cb.success_count = 0 → ts.length = cb.success_threshold →
      0 < cb.success_threshold →
      (cb.runTrace (ts.map fun t => (t, true))).2.state
          = CircuitState.closed ∧
        (cb.runTrace (ts.map fun t => (t, true))).2.failure_count = 0 ∧
        (cb.runTrace (ts.map fun t => (t, true))).2.success_count = 0) ∧
    (∀ now : Rat, cb.state = CircuitState.halfOpen →
      (cb.call now false).2.state = CircuitState.opened) := by
  refine ⟨?_, ?_, ?_, ?_, ?_⟩
  · intro ts hst hfc hlen hpos
    exact closed_failures_aux ts cb hst (by omega) (by
      intro hnil
      rw [hnil] at hlen
      simp at hlen
      omega)
  · intro now ok t hst hlft ht hlt
    have hne : t ≠ 0 := ne_of_gt ht
    have hnle : ¬ cb.recovery_timeout ≤ now - t := not_le.2 hlt
    rw [CircuitBreaker.call]
    simp [hst, hlft, hne, hnle]
  · intro now ok t hst hlft ht hle
    have hne : t ≠ 0 := ne_of_gt ht
    rw [CircuitBreaker.call]
    rcases ok with _ | _ <;> simp [hst, hlft, hne, hle]
  · intro ts hst hsc hlen hpos
    exact halfOpen_successes_aux ts cb hst (by omega) (by
      intro hnil
      rw [hnil] at hlen
      simp at hlen
      omega)
  · intro now hst
    rw [call_halfOpen_exec cb hst now false]
    simp only [Bool.false_eq_true, if_false]
    rw [CircuitBreaker.on_failure]
    simp [hst]

/-- Circuit breaker in the initial Closed state with thresholds 2/2 and a
10-second recovery timeout. -/
def cbClosedEx : CircuitBreaker :=
  { failure_threshold := 2, recovery_timeout := 10, success_threshold := 2
    state := CircuitState.closed, failure_count := 0, success_count := 0
    last_failure_time := none }

/-- The same breaker after the two failed calls of `claim_C4_witness`. -/
def cbOpenEx : CircuitBreaker :=
  { failure_threshold := 2, recovery_timeout := 10, success_threshold := 2
    state := CircuitState.opened, failure_count := 2, success_count := 0
    last_failure_time := some 2 }

/-- The same breaker in the Half-Open probe state. -/
def cbHalfEx : CircuitBreaker :=
  { failure_threshold := 2, recovery_timeout := 10, success_threshold := 2
    state := CircuitState.halfOpen, failure_count := 2, success_count := 0
    last_failure_time := some 2 }

/-- Witness for C4: all five clauses exercised on concrete breakers. -/
theorem claim_C4_witness :
    ((cbClosedEx.runTrace ([1, 2].map fun t => (t, false))).1
        = List.replicate 2 (CallResult.executed false) ∧
      (cbClosedEx.runTrace ([1, 2].map fun t => (t, false))).2.state
        = CircuitState.opened) ∧
    (cbOpenEx.call 5 true = (CallResult.rejected, cbOpenEx)) ∧
    (cbOpenEx.call 12 true = (CallResult.executed true,
      ({ cbOpenEx with state := CircuitState.halfOpen,
                       success_count := 0 }).on_success)) ∧
    ((cbHalfEx.runTrace ([12, 13].map fun t => (t, true))).2.state
        = CircuitState.closed ∧
      (cbHalfEx.runTrace ([12, 13].map fun t => (t, true))).2.failure_count
        = 0 ∧
      (cbHalfEx.runTrace ([12, 13].map fun t => (t, true))).2.success_count
        = 0) ∧
    ((cbHalfEx.call 12 false).2.state = CircuitState.opened) :=
  ⟨(claim_C4_circuit_breaker cbClosedEx).1 [1, 2] rfl rfl rfl (by decide),
    (claim_C4_circuit_breaker cbOpenEx).2.1 5 true 2 rfl rfl (by norm_num)
      (by norm_num [cbOpenEx]),
    (claim_C4_circuit_breaker cbOpenEx).2.2.1 12 true 2 rfl rfl (by norm_num)
      (by norm_num [cbOpenEx]),
    (claim_C4_circuit_breaker cbHalfEx).2.2.2.1 [12, 13] rfl rfl rfl
      (by decide),
    (claim_C4_circuit_breaker cbHalfEx).2.2.2.2 12 rfl⟩

/-! ## Fix orchestrator (`validation/fix_orchestrator.py`)

`attempt_fix` is modelled as a pure state transformer; the external
template-fix collaborator (`fix_template_issue`, a timeout-bounded
subprocess call) is an oracle giving the outcome per issue description. -/

/-- `TestStatus` of `validation/endpoint_tester.py`. -/
inductive TestStatusM where
  | success
  | failure
  | timeout
  | authError
  | serverError
  | skipped
  deriving DecidableEq

/-- The fields of `TestResult` that `attempt_fix` reads. -/
structure TestResultM where
  status : TestStatusM
  endpointMethod : String
  endpointPath : String
  statusCode : Option Nat
  errorMessage : Option String
  deriving DecidableEq

inductive ErrorCategory where
  | timeout
  | authError
  | serverError
  | templateIssue
  | dependencyIssue
  | configurationIssue
  | networkIssue
  | unknown
  deriving DecidableEq

inductive FixStrategy where
  | retry
  | updateTemplate
  | updateDependencies
  | reconfigure
  | manualIntervention
  deriving DecidableEq

/-- `ErrorCategory.value`. -/
def ErrorCategory.value : ErrorCategory → String
  | .timeout => "timeout"
  | .authError => "auth_error"
  | .serverError => "server_error"
  | .templateIssue => "template_issue"
  | .dependencyIssue => "dependency_issue"
  | .configurationIssue => "configuration_issue"
  | .networkIssue => "network_issue"
  | .unknown => "unknown"

/-- `FixAttempt` record. -/
structure FixAttempt where
  error_category : ErrorCategory
  fix_strategy : FixStrategy
  description : String
  success : Bool
  error_message : Option String
  deriving DecidableEq

/-- Does the character list `s` start with `kw`? -/
def charStarts : List Char → List Char → Bool
  | _, [] => true
  | [], _ :: _ => false
  | c :: cs, k :: ks => (c = k) && charStarts cs ks

/-- Does the character list `s` contain `kw` (Python's `kw in s`)? -/
def charHasSub : List Char → List Char → Bool
  | [], kw => charStarts [] kw
  | c :: cs, kw => charStarts (c :: cs) kw || charHasSub cs kw

/-- Python's `kw in s` on strings. -/
def strContains (s kw : String) : Bool := charHasSub s.toList kw.toList

/-- `_classify_deployment_error`: ordered keyword search over the lowercased
message. -/
def classify_deployment_error (msg : String) : ErrorCategory :=
  let e := msg.toLower
  if ["template", "bicep", "syntax", "validation", "schema"].any
      (fun kw => strContains e kw) then ErrorCategory.templateIssue
  else if ["dependency", "resource not found", "does not exist"].any
      (fun kw => strContains e kw) then ErrorCategory.dependencyIssue
  else if ["configuration", "setting", "parameter", "invalid value"].any
      (fun kw => strContains e kw) then ErrorCategory.configurationIssue
  else if ["network", "timeout", "connection", "unreachable"].any
      (fun kw => strContains e kw) then ErrorCategory.networkIssue
  else if ["auth", "permission", "forbidden", "unauthorized"].any
      (fun kw => strContains e kw) then ErrorCategory.authError
  else ErrorCategory.unknown

/-- `classifications.setdefault(category, []).append(message)` on an
insertion-ordered association list (Python dicts preserve insertion
order). -/
def addClassification (cls : List (ErrorCategory × List String))
    (cat : ErrorCategory) (msg : String) :
    List (ErrorCategory × List String) :=
  if cls.any (fun p => p.1 = cat) then
    cls.map (fun p => if p.1 = cat then (p.1, p.2 ++ [msg]) else p)
  else cls ++ [(cat, [msg])]

/-- One test result's contribution to `_classify_errors`. -/
def classifyTest (cls : List (ErrorCategory × List String))
    (r : TestResultM) : List (ErrorCategory × List String) :=
  match r.status with
  | TestStatusM.timeout =>
      addClassification cls ErrorCategory.timeout
        ("Endpoint timeout: " ++ r.endpointMethod ++ " " ++ r.endpointPath)
  | TestStatusM.authError =>
      addClassification cls ErrorCategory.authError
        ("Authentication error: " ++ r.endpointMethod ++ " " ++ r.endpointPath)
  | TestStatusM.serverError =>
      addClassification cls ErrorCategory.serverError
        ("Server error (" ++ toString r.statusCode ++ "): "
          ++ r.endpointMethod ++ " " ++ r.endpointPath)
  | TestStatusM.failure =>
      addClassification cls ErrorCategory.unknown
        ("Test failure: " ++ r.endpointMethod ++ " " ++ r.endpointPath
          ++ " - " ++ toString r.errorMessage)
  | _ => cls

/-- `_classify_errors(test_results, deployment_errors)`. -/
def classify_errors (test_results : List TestResultM)
    (deployment_errors : Option (List String)) :
    List (ErrorCategory × List String) :=
  let cls := test_results.foldl classifyTest []
  match deployment_errors with
  | none => cls
  | some errs =>
      errs.foldl (fun c e => addClassification c (classify_deployment_error e) e)
        cls

/-- `_select_fix_strategy`: the fixed category→strategy table. -/
def select_fix_strategy : ErrorCategory → FixStrategy
  | ErrorCategory.timeout => FixStrategy.retry
  | ErrorCategory.authError => FixStrategy.reconfigure
  | ErrorCategory.serverError => FixStrategy.updateTemplate
  | ErrorCategory.templateIssue => FixStrategy.updateTemplate
  | ErrorCategory.dependencyIssue => FixStrategy.updateDependencies
  | ErrorCategory.configurationIssue => FixStrategy.reconfigure
  | ErrorCategory.networkIssue => FixStrategy.retry
  | ErrorCategory.unknown => FixStrategy.manualIntervention

/-- Outcome of the external template-fix collaborator
(`fix_template_issue`), per issue description. -/
structure FixOracle where
  templateFixOk : String → Bool

/-- Outcome of executing one fix strategy (`_dispatch_fixes` body):
`UPDATE_TEMPLATE` consults the external tool unless template fixes are
disabled; `_fix_dependency_issues` and `_fix_configuration_issues` are
unimplemented and return `False`; `RETRY` is a no-op signal returning
`True`; `MANUAL_INTERVENTION` reports failure. -/
def execStrategy (enable_template_fixes : Bool) (or : FixOracle)
    (strat : FixStrategy) (msgs : List String) : Bool :=
  match strat with
  | FixStrategy.updateTemplate =>
      if enable_template_fixes then
        or.templateFixOk (String.intercalate " | " msgs)
      else false
  | FixStrategy.updateDependencies => false
  | FixStrategy.reconfigure => false
  | FixStrategy.retry => true
  | FixStrategy.manualIntervention => false

/-- Outcome of the strategy dispatched for one category entry. -/
def strategyOutcome (enable_template_fixes : Bool) (or : FixOracle)
    (p : ErrorCategory × List String) : Bool :=
  execStrategy enable_template_fixes or (select_fix_strategy p.1) p.2

/-- The `FixAttempt` record `_dispatch_fixes` appends for one category. -/
def recordOf (enable_template_fixes : Bool) (or : FixOracle)
    (p : ErrorCategory × List String) : FixAttempt :=
  let success := strategyOutcome enable_template_fixes or p
  { error_category := p.1
    fix_strategy := select_fix_strategy p.1
    description := "Fixed " ++ toString p.2.length ++ " "
      ++ p.1.value ++ " error(s)"
    success := success
    error_message := if success then none else some "Fix failed" }

/-- The mutable attributes of `FixOrchestrator`. -/
structure FixState where
  max_fix_attempts : Nat
  enable_template_fixes : Bool
  fix_attempts : List FixAttempt
  circuit_breaker_open : Bool
  deriving DecidableEq

/-- One iteration of the `for category, messages in
error_classifications.items()` loop of `_dispatch_fixes`. -/
def dispatchStep (or : FixOracle) (acc : Bool × FixState)
    (p : ErrorCategory × List String) : Bool × FixState :=
  let success := strategyOutcome acc.2.enable_template_fixes or p
  (acc.1 && success,
    { acc.2 with fix_attempts :=
        acc.2.fix_attempts ++ [recordOf acc.2.enable_template_fixes or p] })

/-- `_dispatch_fixes`: execute a strategy per category, record one
`FixAttempt` each, and return the conjunction of the outcomes. -/
def dispatch_fixes (st : FixState) (or : FixOracle)
    (cls : List (ErrorCategory × List String)) : Bool × FixState :=
  cls.foldl (dispatchStep or) (true, st)

/-- `FixOrchestrator.attempt_fix`. -/
def attempt_fix (st : FixState) (or : FixOracle)
    (test_results : List TestResultM)
    (deployment_errors : Option (List String)) : Bool × FixState :=
  if st.circuit_breaker_open then (false, st)
  else if st.max_fix_attempts ≤ st.fix_attempts.length then
    (false, { st with circuit_breaker_open := true })
  else
    let cls := classify_errors test_results deployment_errors
    if cls.isEmpty then (true, st)
    else dispatch_fixes st or cls

/-- `FixOrchestrator.reset_circuit_breaker`. -/
def reset_circuit_breaker (st : FixState) : FixState :=
  { st with circuit_breaker_open := false, fix_attempts := [] }

/-- The dispatch fold appends exactly the per-category records and computes
the conjunction of the per-category outcomes. -/
theorem dispatch_foldl (or : FixOracle) :
    ∀ (cls : List (ErrorCategory × List String)) (b : Bool) (st : FixState),
      cls.foldl (dispatchStep or) (b, st)
        = (b && cls.all (strategyOutcome st.enable_template_fixes or),
          { st with fix_attempts := st.fix_attempts
              ++ cls.map (recordOf st.enable_template_fixes or) }) := by
  intro cls
  induction cls with
  | nil => intro b st; simp
  | cons p cls ih =>
      intro b st
      rw [List.foldl_cons]
      rw [show dispatchStep or (b, st) p
          = (b && strategyOutcome st.enable_template_fixes or p,
            { st with fix_attempts := st.fix_attempts
                ++ [recordOf st.enable_template_fixes or p] }) from rfl]
      rw [ih]
      simp [Bool.and_assoc]

theorem dispatch_fixes_eq (st : FixState) (or : FixOracle)
    (cls : List (ErrorCategory × List String)) :
    dispatch_fixes st or cls
      = (cls.all (strategyOutcome st.enable_template_fixes or),
        { st with fix_attempts := st.fix_attempts
            ++ cls.map (recordOf st.enable_template_fixes or) }) := by
  rw [dispatch_fixes, dispatch_foldl]
  simp

/-- Test results whose status is Success or Skipped contribute nothing to
the classification. -/
theorem classify_foldl_skip :
    ∀ (tr : List TestResultM) (c : List (ErrorCategory × List String)),
      (∀ r ∈ tr, r.status = TestStatusM.success ∨
        r.status = TestStatusM.skipped) →
      tr.foldl classifyTest c = c := by
  intro tr
  induction tr with
  | nil => intro c _; rfl
  | cons r tr ih =>
      intro c hall
      rw [List.foldl_cons]
      have hr := hall r (List.mem_cons_self _ _)
      have hstep : classifyTest c r = c := by
        rcases hr with h | h <;> rw [classifyTest, h]
      rw [hstep]
      exact ih c (fun x hx => hall x (List.mem_cons_of_mem _ hx))

theorem classify_errors_eq_nil {tr : List TestResultM}
    {de : Option (List String)}
    (hstatus : ∀ r ∈ tr, r.status = TestStatusM.success ∨
      r.status = TestStatusM.skipped)
    (hde : de = none ∨ de = some []) :
    classify_errors tr de = [] := by
  rw [classify_errors.eq_def]
  rcases hde with h | h <;> rw [h]
  · exact classify_foldl_skip tr [] hstatus
  · simp only [List.foldl_nil]
    exact classify_foldl_skip tr [] hstatus

/-- C9.  The `FixOrchestrator` breaker and dispatch contract: (i) with the
breaker flag already set, `attempt_fix` returns `False` and changes
nothing; (ii) once the recorded attempts reach `max_fix_attempts`, the next
`attempt_fix` call sets the breaker flag and returns `False` without
classifying errors or dispatching any strategy (no record is appended);
(iii) `reset_circuit_breaker` clears the flag and the attempt log; (iv) in
any call that reaches dispatch, exactly one `FixAttempt` record is appended
per dispatched category — win or lose — and the returned value is the
conjunction of the per-category strategy outcomes. -/
theorem claim_C9_fix_orchestrator (st : FixState) (or : FixOracle)
    (tr : List TestResultM) (de : Option (List String)) :
    (st.circuit_breaker_open = true → attempt_fix st or tr de = (false, st)) ∧
    (st.circuit_breaker_open = false →
      st.max_fix_attempts ≤ st.fix_attempts.length →
      attempt_fix st or tr de = (false, { st with circuit_breaker_open := true })) ∧
    ((reset_circuit_breaker st).circuit_breaker_open = false ∧
      (reset_circuit_breaker st).fix_attempts = []) ∧
    (st.circuit_breaker_open = false →
      st.fix_attempts.length < st.max_fix_attempts →
      classify_errors tr de ≠ [] →
      (attempt_fix st or tr de).1
          = (classify_errors tr de).all
              (strategyOutcome st.enable_template_fixes or) ∧
        (attempt_fix st or tr de).2.fix_attempts
          = st.fix_attempts ++ (classify_errors tr de).map
              (recordOf st.enable_template_fixes or) ∧
        (attempt_fix st or tr de).2.circuit_breaker_open = false) := by
  refine ⟨?_, ?_, ⟨rfl, rfl⟩, ?_⟩
  · intro h
    rw [attempt_fix, if_pos h]
  · intro hopen hle
    rw [attempt_fix, if_neg (by simp [hopen]), if_pos hle]
  · intro hopen hlt hne
    have hnle : ¬ st.max_fix_attempts ≤ st.fix_attempts.length := by omega
    have hemp : ¬ (classify_errors tr de).isEmpty := by
      rcases h : classify_errors tr de with _ | _
      · exact absurd h hne
      · simp
    rw [attempt_fix, if_neg (by simp [hopen]), if_neg hnle]
    simp only [if_neg hemp]
    rw [dispatch_fixes_eq]
    exact ⟨rfl, rfl, hopen⟩

/-- C10.  With the breaker semantically closed (flag unset and strictly
fewer recorded attempts than `max_fix_attempts` — the spec's breaker opens
once the count reaches the bound) and inputs yielding no error
classification (all test statuses outside Timeout/AuthError/ServerError/
Failure, and no deployment errors), `attempt_fix` returns `True`, appends
no `FixAttempt`, and leaves the whole orchestrator state — breaker flag
included — unchanged, so such calls never consume fix attempts. -/
theorem claim_C10_attempt_fix_no_classification (st : FixState)
    (or : FixOracle) (tr : List TestResultM) (de : Option (List String))
    (hopen : st.circuit_breaker_open = false)
    (hcount : st.fix_attempts.length < st.max_fix_attempts)
    (hstatus : ∀ r ∈ tr, r.status = TestStatusM.success ∨
      r.status = TestStatusM.skipped)
    (hde : de = none ∨ de = some []) :
    attempt_fix st or tr de = (true, st) := by
  have hnle : ¬ st.max_fix_attempts ≤ st.fix_attempts.length := by omega
  rw [attempt_fix, if_neg (by simp [hopen]), if_neg hnle]
  simp [classify_errors_eq_nil hstatus hde]

/-- A failing endpoint test result. -/
def trFailEx : TestResultM :=
  { status := TestStatusM.failure, endpointMethod := "GET"
    endpointPath := "/api/health", statusCode := none
    errorMessage := some "boom" }

/-- A passing endpoint test result. -/
def trOkEx : TestResultM :=
  { status := TestStatusM.success, endpointMethod := "GET"
    endpointPath := "/api/health", statusCode := some 200
    errorMessage := none }

/-- External template-fix collaborator that always fails. -/
def orEx : FixOracle := ⟨fun _ => false⟩

def attEx : FixAttempt :=
  { error_category := ErrorCategory.unknown
    fix_strategy := FixStrategy.manualIntervention
    description := "d", success := false, error_message := some "Fix failed" }

/-- Orchestrator with the breaker flag set. -/
def stOpenEx : FixState :=
  { max_fix_attempts := 3, enable_template_fixes := true
    fix_attempts := [], circuit_breaker_open := true }

/-- Orchestrator whose attempt log has reached `max_fix_attempts`. -/
def stFullEx : FixState :=
  { max_fix_attempts := 1, enable_template_fixes := true
    fix_attempts := [attEx], circuit_breaker_open := false }

/-- Orchestrator with attempts to spare. -/
def stFreshEx : FixState :=
  { max_fix_attempts := 3, enable_template_fixes := true
    fix_attempts := [], circuit_breaker_open := false }

/-- Witness for C9, exercising all four clauses on concrete states. -/
theorem claim_C9_witness :
    (attempt_fix stOpenEx orEx [trFailEx] none = (false, stOpenEx)) ∧
    (attempt_fix stFullEx orEx [trFailEx] none
      = (false, { stFullEx with circuit_breaker_open := true })) ∧
    ((reset_circuit_breaker stFullEx).circuit_breaker_open = false ∧
      (reset_circuit_breaker stFullEx).fix_attempts = []) ∧
    ((attempt_fix stFreshEx orEx [trFailEx] none).1
        = (classify_errors [trFailEx] none).all
            (strategyOutcome stFreshEx.enable_template_fixes orEx) ∧
      (attempt_fix stFreshEx orEx [trFailEx] none).2.fix_attempts
        = stFreshEx.fix_attempts ++ (classify_errors [trFailEx] none).map
            (recordOf stFreshEx.enable_template_fixes orEx) ∧
      (attempt_fix stFreshEx orEx [trFailEx] none).2.circuit_breaker_open
        = false) :=
  ⟨(claim_C9_fix_orchestrator stOpenEx orEx [trFailEx] none).1 rfl,
    (claim_C9_fix_orchestrator stFullEx orEx [trFailEx] none).2.1 rfl
      (by decide),
    (claim_C9_fix_orchestrator stFullEx orEx [trFailEx] none).2.2.1,
    (claim_C9_fix_orchestrator stFreshEx orEx [trFailEx] none).2.2.2 rfl
      (by decide) (by decide)⟩

/-- Witness for C10 at a concrete closed orchestrator and a passing test
run. -/
theorem claim_C10_witness :
    attempt_fix stFreshEx orEx [trOkEx] none = (true, stFreshEx) :=
  claim_C10_attempt_fix_no_classification stFreshEx orEx [trOkEx] none rfl
    (by decide) (by decide) (Or.inl rfl)

/-! ## Resource deployer (`validation/resource_deployer_simple.py`)

The provisioning backend (`AzureCLIWrapper`) is abstracted as an oracle;
provision (`deploy_template`) and delete (`delete_resource`) calls are
recorded in an event trace.  `_deploy_without_progress` awaits each
`_deploy_single` in order, so the model is sequential; the semaphore bound
never changes which calls are made.  Fields of `ResourceDeployment` that
are only passed through to the backend or logged (resource type, template
path, deployment order, status) are not modelled; `output_values` merging
only feeds `deployment_outputs`, which no claim reads, and is omitted. -/

structure ResourceDeployment where
  resource_id : String
  resource_name : String
  deriving DecidableEq

/-- Outcomes of the provisioning backend, per resource id and (0-indexed)
attempt: `existsRes` is `get_resource` returning non-`None`
(`_check_resource_exists` turns every exception into `False`);
`validateFails` covers both a raising `validate_template` and a
`{"valid": False}` result (both land in the same `except` and are
retried); `deployFails` is a raising `deploy_template`; `deleteFails` is a
raising `delete_resource`. -/
structure DeployBackend where
  existsRes : String → Bool
  validateFails : String → Nat → Bool
  deployFails : String → Nat → Bool
  deleteFails : String → Bool

inductive DeployEvent where
  | provisionCall (resource_id : String) (attempt : Nat)
  | deleteCall (resource_id : String) (ok : Bool)
  deriving DecidableEq

structure DeployerConfig where
  force_redeploy : Bool
  enable_rollback : Bool
  retry_max_attempts : Nat
  deriving DecidableEq

/-- The validation retry loop of `_deploy_single`: attempts `a`, `a+1`, …
until one does not fail; `none` means exhaustion (the final `raise` reaches
the outer handler). -/
def firstOkAttempt (fails : Nat → Bool) : Nat → Nat → Option Nat
  | 0, _ => none
  | n + 1, a => if fails a then firstOkAttempt fails n (a + 1) else some a

/-- The deployment retry loop of `_deploy_single`: every attempt issues a
`deploy_template` call (traced), stopping at the first success or after
exhaustion. -/
def provisionTrace (id : String) (fails : Nat → Bool) :
    Nat → Nat → List DeployEvent × Bool
  | 0, _ => ([], false)
  | n + 1, a =>
      if fails a then
        let p := provisionTrace id fails n (a + 1)
        (DeployEvent.provisionCall id a :: p.1, p.2)
      else ([DeployEvent.provisionCall id a], true)

/-- `_deploy_single`: idempotency check, validation with retry, then
provisioning with retry; every exception path returns `False`. -/
def deploy_single (cfg : DeployerConfig) (be : DeployBackend)
    (d : ResourceDeployment) : Bool × List DeployEvent :=
  if !cfg.force_redeploy && be.existsRes d.resource_id then (true, [])
  else
    match firstOkAttempt (be.validateFails d.resource_id)
        cfg.retry_max_attempts 0 with
    | none => (false, [])
    | some _ =>
        let p := provisionTrace d.resource_id (be.deployFails d.resource_id)
          cfg.retry_max_attempts 0
        (p.2, p.1)

/-- `_deploy_without_progress`: deploy in order, collecting the succeeded
specs in order, one error message per failed spec, and the event trace. -/
def deploy_sequence (cfg : DeployerConfig) (be : DeployBackend) :
    List ResourceDeployment →
      List ResourceDeployment × List String × List DeployEvent
  | [] => ([], [], [])
  | d :: rest =>
      let r := deploy_single cfg be d
      let q := deploy_sequence cfg be rest
      if r.1 then (d :: q.1, q.2.1, r.2 ++ q.2.2)
      else (q.1, ("Deployment failed for " ++ d.resource_name) :: q.2.1,
        r.2 ++ q.2.2)

/-- `_rollback_deployments`: delete every previously succeeded spec in
reverse deployment order; a raising `delete_resource` is caught and logged,
so the sweep continues unconditionally. -/
def rollback_deployments (be : DeployBackend)
    (deployed : List ResourceDeployment) : List DeployEvent :=
  deployed.reverse.map
    (fun d => DeployEvent.deleteCall d.resource_id (!be.deleteFails d.resource_id))

/-- Insert into a sorted list, before the first strictly greater key —
a stable sort step (Python's `sorted` is stable). -/
def insertByKey (key : ResourceDeployment → Nat) (d : ResourceDeployment) :
    List ResourceDeployment → List ResourceDeployment
  | [] => [d]
  | e :: l => if key d ≤ key e then d :: e :: l else e :: insertByKey key d l

/-- `sorted(deployments, key=...)` as a stable insertion sort. -/
def sortByKey (key : ResourceDeployment → Nat) :
    List ResourceDeployment → List ResourceDeployment
  | [] => []
  | d :: l => insertByKey key d (sortByKey key l)

/-- The sort key of `deploy_resources`: position in the topological order,
`999` for ids outside the graph. -/
def orderKey (ordered : List String) (d : ResourceDeployment) : Nat :=
  if d.resource_id ∈ ordered then ordered.indexOf d.resource_id else 999

/-- The fields of `DeploymentResult` the claims read, plus the event
trace. -/
structure DeploymentResultM where
  success : Bool
  deployed_resources : List ResourceDeployment
  error_messages : List String
  events : List DeployEvent
  deriving DecidableEq

/-- The body of `deploy_resources` after ordering: deploy, compute
`success = (no errors) and (something deployed)`, and roll back on failure
when enabled. -/
def runDeploy (cfg : DeployerConfig) (be : DeployBackend)
    (sorted : List ResourceDeployment) : DeploymentResultM :=
  let t := deploy_sequence cfg be sorted
  let success := t.2.1.isEmpty && !t.1.isEmpty
  let events :=
    if !success && cfg.enable_rollback && !t.1.isEmpty then
      t.2.2 ++ rollback_deployments be t.1
    else t.2.2
  { success := success, deployed_resources := t.1
    error_messages := t.2.1, events := events }

/-- `deploy_resources`: `.error ()` is the `ValidationError` raised on a
cyclic graph; with a graph, deployments are stably sorted by topological
position (`get_ordered_resources` cannot fail here since `has_cycle` was
just checked). -/
def deploy_resources (cfg : DeployerConfig) (be : DeployBackend)
    (deployments : List ResourceDeployment)
    (graph : Option (DependencyGraph String)) :
    Except Unit DeploymentResultM :=
  match graph with
  | some g =>
      if g.has_cycle then Except.error ()
      else
        let ordered := match g.get_ordered_resources with
          | Except.ok l => l
          | Except.error _ => []
        Except.ok (runDeploy cfg be (sortByKey (orderKey ordered) deployments))
  | none => Except.ok (runDeploy cfg be deployments)

/-- The delete calls of a trace, with the id and the call's outcome. -/
def deleteCallsOf (evs : List DeployEvent) : List (String × Bool) :=
  evs.filterMap (fun e =>
    match e with
    | DeployEvent.deleteCall i ok => some (i, ok)
    | _ => none)

theorem mem_insertByKey (key : ResourceDeployment → Nat)
    (d x : ResourceDeployment) :
    ∀ l, x ∈ insertByKey key d l ↔ x = d ∨ x ∈ l := by
  intro l
  induction l with
  | nil => simp [insertByKey]
  | cons e l ih =>
      rw [insertByKey]
      by_cases h : key d ≤ key e
      · rw [if_pos h]
        simp
      · rw [if_neg h]
        simp only [List.mem_cons, ih]
        tauto

theorem mem_sortByKey (key : ResourceDeployment → Nat)
    (x : ResourceDeployment) :
    ∀ l, x ∈ sortByKey key l ↔ x ∈ l := by
  intro l
  induction l with
  | nil => simp [sortByKey]
  | cons d l ih =>
      rw [sortByKey, mem_insertByKey]
      simp only [List.mem_cons, ih]

theorem mem_deploy_sequence (cfg : DeployerConfig) (be : DeployBackend)
    (d : ResourceDeployment) (hok : (deploy_single cfg be d).1 = true) :
    ∀ l, d ∈ l → d ∈ (deploy_sequence cfg be l).1 := by
  intro l
  induction l with
  | nil => intro h; cases h
  | cons e l ih =>
      intro h
      rw [deploy_sequence]
      rcases List.mem_cons.1 h with h | h
      · subst h
        rw [if_pos hok]
        exact List.mem_cons_self _ _
      · by_cases he : (deploy_single cfg be e).1 = true
        · rw [if_pos he]
          exact List.mem_cons_of_mem _ (ih h)
        · rw [if_neg he]
          exact ih h

/-- C7.  For a spec whose resource the backend reports as already existing,
with `force_redeploy = false`: `_deploy_single` returns `True` with an
empty event trace — in particular `deploy_template` (provision) is never
called for that spec — and in any `deploy_resources` run containing the
spec the spec is counted among the successfully deployed resources. -/
theorem claim_C7_idempotency_skip (cfg : DeployerConfig)
    (be : DeployBackend) (d : ResourceDeployment)
    (hforce : cfg.force_redeploy = false)
    (hex : be.existsRes d.resource_id = true) :
    deploy_single cfg be d = (true, []) ∧
    ∀ (deployments : List ResourceDeployment)
      (graph : Option (DependencyGraph String)) (res : DeploymentResultM),
      d ∈ deployments →
      deploy_resources cfg be deployments graph = Except.ok res →
      d ∈ res.deployed_resources := by
  have hsingle : deploy_single cfg be d = (true, []) := by
    rw [deploy_single]
    simp [hforce, hex]
  refine ⟨hsingle, ?_⟩
  intro deployments graph res hmem heq
  rcases graph with _ | g
  · rw [deploy_resources, Except.ok.injEq] at heq
    subst heq
    exact mem_deploy_sequence cfg be d (by rw [hsingle]) deployments hmem
  · rw [deploy_resources] at heq
    by_cases hc : g.has_cycle
    · rw [if_pos hc] at heq
      exact Except.noConfusion heq
    · rw [if_neg hc, Except.ok.injEq] at heq
      subst heq
      exact mem_deploy_sequence cfg be d (by rw [hsingle]) _
        ((mem_sortByKey _ d _).2 hmem)

/-- The three specs of the rollback scenario, forming the linear chain
`c` depends on `b` depends on `a`. -/
def specA : ResourceDeployment := { resource_id := "a", resource_name := "A" }

def specB : ResourceDeployment := { resource_id := "b", resource_name := "B" }

def specC : ResourceDeployment := { resource_id := "c", resource_name := "C" }

def chainGraph : DependencyGraph String :=
  { nodes := ["a", "b", "c"]
    graph := [("a", ["b"]), ("b", ["c"]), ("c", [])]
    reverse_graph := [("a", []), ("b", ["a"]), ("c", ["b"])] }

/-- Backend of the rollback scenario: nothing pre-exists, validation always
passes, `a` and `b` provision at the first attempt, `c` fails every
provisioning attempt (retry exhaustion); delete outcomes are an arbitrary
oracle. -/
def beChain (delFail : String → Bool) : DeployBackend :=
  { existsRes := fun _ => false
    validateFails := fun _ _ => false
    deployFails := fun id _ => id = "c"
    deleteFails := delFail }

def cfgRollback : DeployerConfig :=
  { force_redeploy := false, enable_rollback := true, retry_max_attempts := 3 }

/-- C6.  In the 3-spec linear-chain run where the first two specs succeed
and the third fails after retry exhaustion, with rollback enabled: the run
returns a `DeploymentResult` with `success = false` after deploying exactly
`a` then `b`; delete is invoked for exactly those two specs in *reverse*
deployment order (`b` before `a`); and — for *every* delete-outcome oracle,
failures included — both deletions are still attempted, so a delete failure
never aborts the remaining deletions. -/
theorem claim_C6_rollback_reverse_order (delFail : String → Bool) :
    ∃ res, deploy_resources cfgRollback (beChain delFail)
        [specA, specB, specC] (some chainGraph) = Except.ok res ∧
      res.success = false ∧
      res.deployed_resources = [specA, specB] ∧
      res.error_messages = ["Deployment failed for C"] ∧
      deleteCallsOf res.events
        = [("b", !delFail "b"), ("a", !delFail "a")] :=
  ⟨_, rfl, rfl, rfl, rfl, rfl⟩

/-- Witness for C6 with a delete oracle that fails on `b`: the sweep still
reaches `a`. -/
theorem claim_C6_witness :
    ∃ res, deploy_resources cfgRollback (beChain (fun i => i = "b"))
        [specA, specB, specC] (some chainGraph) = Except.ok res ∧
      res.success = false ∧
      res.deployed_resources = [specA, specB] ∧
      res.error_messages = ["Deployment failed for C"] ∧
      deleteCallsOf res.events = [("b", false), ("a", true)] :=
  claim_C6_rollback_reverse_order (fun i => i = "b")

/-- Backend where every resource already exists (for the C7 witness). -/
def beExisting : DeployBackend :=
  { existsRes := fun _ => true
    validateFails := fun _ _ => false
    deployFails := fun _ _ => false
    deleteFails := fun _ => false }

/-- Witness for C7: an already-existing spec is skipped (no provision call)
and counted as deployed in a concrete two-spec run. -/
theorem claim_C7_witness :
    deploy_single cfgRollback beExisting specA = (true, []) ∧
    specA ∈ (runDeploy cfgRollback beExisting [specA, specB]).deployed_resources :=
  ⟨(claim_C7_idempotency_skip cfgRollback beExisting specA rfl rfl).1,
    (claim_C7_idempotency_skip cfgRollback beExisting specA rfl rfl).2
      [specA, specB] none _ (List.mem_cons_self _ _) rfl⟩

/-! ## Validation session (`validation/validation_session.py`)

The test/fix loop of `_run_testing_and_fixing_stages` and the success flag
assignment of `run()`.  The endpoint tester is an oracle giving the test
results of each testing round; discovery/analysis/deployment (stages 1–3)
are external collaborators that complete normally in the scenario the
claims describe, so `run()` reaches the loop and afterwards — the loop
itself never raises — executes `self.summary.success = True`. -/

/-- `failed_tests = [r for r in self.test_results if r.status not in
[TestStatus.SUCCESS, TestStatus.SKIPPED]]`. -/
def failedOf (results : List TestResultM) : List TestResultM :=
  results.filter (fun r =>
    decide (r.status ≠ TestStatusM.success ∧ r.status ≠ TestStatusM.skipped))

/-- The `for attempt in range(self.max_fix_attempts + 1)` loop: test, break
when nothing failed; otherwise — while attempts remain — fix, and stop when
the orchestrator's breaker has opened.  Returns the number of fixing-stage
invocations and the final orchestrator state. -/
def sessionLoop (tests : Nat → List TestResultM) (or : FixOracle)
    (maxFix : Nat) : Nat → Nat → FixState → Nat × FixState
  | 0, _, orch => (0, orch)
  | remaining + 1, attempt, orch =>
      let failed := failedOf (tests attempt)
      if failed.isEmpty then (0, orch)
      else if attempt < maxFix then
        let r := attempt_fix orch or failed none
        if r.2.circuit_breaker_open then (1, r.2)
        else
          let q := sessionLoop tests or maxFix remaining (attempt + 1) r.2
          (q.1 + 1, q.2)
      else (0, orch)

/-- `_run_testing_and_fixing_stages`: a fresh `FixOrchestrator` configured
with the session's `max_fix_attempts`, then the loop. -/
def run_testing_and_fixing (maxFix : Nat) (enableFixes : Bool)
    (tests : Nat → List TestResultM) (or : FixOracle) : Nat × FixState :=
  sessionLoop tests or maxFix (maxFix + 1) 0
    { max_fix_attempts := maxFix, enable_template_fixes := enableFixes
      fix_attempts := [], circuit_breaker_open := false }

/-- The summary fields of `run()` the claim reads. -/
structure SessionSummaryM where
  fixing_invocations : Nat
  success : Bool
  deriving DecidableEq

/-- `ValidationSession.run()` in the scenario where stages 1–3 complete:
run the testing/fixing loop, then mark the summary successful
(`self.summary.success = True` — the source sets it unconditionally when no
stage raised, regardless of test outcomes). -/
def run_session (maxFix : Nat) (enableFixes : Bool)
    (tests : Nat → List TestResultM) (or : FixOracle) : SessionSummaryM :=
  let p := run_testing_and_fixing maxFix enableFixes tests or
  { fixing_invocations := p.1, success := true }

/-! ### Lemmas for the session loop -/

theorem addClassification_ne_nil (c : List (ErrorCategory × List String))
    (cat : ErrorCategory) (msg : String) :
    addClassification c cat msg ≠ [] := by
  rw [addClassification]
  rcases c with _ | ⟨p, c⟩
  · simp
  · by_cases h : ((p :: c).any (fun q => q.1 = cat)) = true
    · rw [if_pos h]
      simp
    · rw [if_neg h]
      simp

theorem classifyTest_ne_nil {c : List (ErrorCategory × List String)}
    (hc : c ≠ []) (r : TestResultM) : classifyTest c r ≠ [] := by
  rw [classifyTest]
  rcases r.status <;>
    first
      | exact hc
      | exact addClassification_ne_nil _ _ _

theorem foldl_classify_ne_nil :
    ∀ (l : List TestResultM) (c : List (ErrorCategory × List String)),
      c ≠ [] → l.foldl classifyTest c ≠ [] := by
  intro l
  induction l with
  | nil => intro c hc; exact hc
  | cons r l ih =>
      intro c hc
      rw [List.foldl_cons]
      exact ih _ (classifyTest_ne_nil hc r)

/-- A nonempty list of failed tests always produces at least one error
classification. -/
theorem classify_failed_ne_nil {results : List TestResultM}
    (h : failedOf results ≠ []) :
    classify_errors (failedOf results) none ≠ [] := by
  rcases hf : failedOf results with _ | ⟨r, rest⟩
  · exact absurd hf h
  · have hr : r ∈ failedOf results := by
      rw [hf]
      exact List.mem_cons_self _ _
    have hst : r.status ≠ TestStatusM.success ∧
        r.status ≠ TestStatusM.skipped := by
      rw [failedOf, List.mem_filter] at hr
      simpa using hr.2
    have hnone : classify_errors (r :: rest) none
        = (r :: rest).foldl classifyTest [] := rfl
    rw [hnone]
    simp only [List.foldl_cons]
    have h1 : classifyTest [] r ≠ [] := by
      rw [classifyTest]
      rcases hs : r.status
      · exact absurd hs hst.1
      · exact addClassification_ne_nil _ _ _
      · exact addClassification_ne_nil _ _ _
      · exact addClassification_ne_nil _ _ _
      · exact addClassification_ne_nil _ _ _
      · exact absurd hs hst.2
    exact foldl_classify_ne_nil rest _ h1

/-- `attempt_fix` on a dispatching call (shared by the C9 statement and the
session-loop analysis). -/
theorem attempt_fix_dispatch_eq (st : FixState) (or : FixOracle)
    (tr : List TestResultM) (de : Option (List String))
    (hopen : st.circuit_breaker_open = false)
    (hlt : st.fix_attempts.length < st.max_fix_attempts)
    (hne : classify_errors tr de ≠ []) :
    attempt_fix st or tr de
      = ((classify_errors tr de).all
            (strategyOutcome st.enable_template_fixes or),
        { st with fix_attempts :=
            st.fix_attempts ++ (classify_errors tr de).map (recordOf st.enable_template_fixes or) }) := by
  have hnle : ¬ st.max_fix_attempts ≤ st.fix_attempts.length := by omega
  have hemp : ¬ (classify_errors tr de).isEmpty := by
    rcases h : classify_errors tr de with _ | _
    · exact absurd h hne
    · simp
  rw [attempt_fix, if_neg (by simp [hopen]), if_neg hnle]
  simp only [if_neg hemp]
  rw [dispatch_fixes_eq]

/-- `attempt_fix` on a breaker-tripping call. -/
theorem attempt_fix_trip_eq (st : FixState) (or : FixOracle)
    (tr : List TestResultM) (de : Option (List String))
    (hopen : st.circuit_breaker_open = false)
    (hge : st.max_fix_attempts ≤ st.fix_attempts.length) :
    attempt_fix st or tr de = (false, { st with circuit_breaker_open := true }) := by
  rw [attempt_fix, if_neg (by simp [hopen]), if_pos hge]

theorem isEmpty_false_of_ne_nil {β : Type} {l : List β} (h : l ≠ []) :
    l.isEmpty = false := by
  rcases l with _ | _
  · exact absurd rfl h
  · rfl

theorem sessionLoop_step_fix (tests : Nat → List TestResultM)
    (or : FixOracle) (maxFix remaining attempt : Nat) (orch : FixState)
    (hrem : remaining ≠ 0)
    (hne : (failedOf (tests attempt)).isEmpty = false)
    (hlt : attempt < maxFix) :
    sessionLoop tests or maxFix remaining attempt orch
      = (if (attempt_fix orch or (failedOf (tests attempt)) none).2.circuit_breaker_open
          then (1, (attempt_fix orch or (failedOf (tests attempt)) none).2)
          else ((sessionLoop tests or maxFix (remaining - 1) (attempt + 1)
              (attempt_fix orch or (failedOf (tests attempt)) none).2).1 + 1,
            (sessionLoop tests or maxFix (remaining - 1) (attempt + 1)
              (attempt_fix orch or (failedOf (tests attempt)) none).2).2)) := by
  rcases remaining with _ | rem
  · exact absurd rfl hrem
  · rw [sessionLoop]
    simp only [hne, Bool.false_eq_true, if_false, if_pos hlt,
      Nat.succ_sub_one]

theorem sessionLoop_step_max (tests : Nat → List TestResultM)
    (or : FixOracle) (maxFix remaining attempt : Nat) (orch : FixState)
    (hrem : remaining ≠ 0)
    (hne : (failedOf (tests attempt)).isEmpty = false)
    (hge : ¬ attempt < maxFix) :
    sessionLoop tests or maxFix remaining attempt orch = (0, orch) := by
  rcases remaining with _ | rem
  · exact absurd rfl hrem
  · rw [sessionLoop]
    simp only [hne, Bool.false_eq_true, if_false, if_neg hge]

/-- C5.  The test/fix loop is bounded: with `max_fix_attempts = 2` and an
endpoint tester whose every round contains at least one failing result,
`run()` performs exactly 2 fix attempts and then terminates.  However, the
resulting summary has `success = true`, not `false`: `run()` sets
`self.summary.success = True` unconditionally once
`_run_testing_and_fixing_stages` returns without raising, and the loop
never raises on persistent test failures — the code contradicts the
specified `success == false` outcome. -/
theorem claim_C5_fix_loop_bounded (tests : Nat → List TestResultM)
    (or : FixOracle) (enableFixes : Bool)
    (hfail : ∀ k, failedOf (tests k) ≠ []) :
    (run_session 2 enableFixes tests or).fixing_invocations = 2 ∧
    (run_session 2 enableFixes tests or).success = true := by
  have hemp : ∀ k, (failedOf (tests k)).isEmpty = false :=
    fun k => isEmpty_false_of_ne_nil (hfail k)
  have hcls : ∀ k, classify_errors (failedOf (tests k)) none ≠ [] :=
    fun k => classify_failed_ne_nil (hfail k)
  refine ⟨?_, rfl⟩
  show (run_testing_and_fixing 2 enableFixes tests or).1 = 2
  rw [run_testing_and_fixing]
  rw [sessionLoop_step_fix tests or 2 (2 + 1) 0 _ (by decide) (hemp 0)
    (by decide)]
  rw [attempt_fix_dispatch_eq
    { max_fix_attempts := 2, enable_template_fixes := enableFixes,
      fix_attempts := [], circuit_breaker_open := false }
    or (failedOf (tests 0)) none rfl (by simp) (hcls 0)]
  simp only [List.nil_append, Bool.false_eq_true, if_false,
    Nat.add_sub_cancel, Nat.zero_add]
  rw [sessionLoop_step_fix tests or 2 2 1 _ (by decide) (hemp 1) (by decide)]
  by_cases hlen : (classify_errors (failedOf (tests 0)) none).length < 2
  · rw [attempt_fix_dispatch_eq
      { max_fix_attempts := 2, enable_template_fixes := enableFixes,
        fix_attempts := List.map (recordOf enableFixes or)
          (classify_errors (failedOf (tests 0)) none),
        circuit_breaker_open := false }
      or (failedOf (tests 1)) none rfl
      (by simp only [List.length_map]; exact hlen) (hcls 1)]
    simp only [Bool.false_eq_true, if_false, Nat.add_sub_cancel]
    rw [sessionLoop_step_max tests or 2 1 2 _ (by decide) (hemp 2)
      (by decide)]
  · rw [attempt_fix_trip_eq
      { max_fix_attempts := 2, enable_template_fixes := enableFixes,
        fix_attempts := List.map (recordOf enableFixes or)
          (classify_errors (failedOf (tests 0)) none),
        circuit_breaker_open := false }
      or (failedOf (tests 1)) none rfl
      (by simp only [List.length_map]; omega)]
    simp

/-- Witness for C5: a tester that always reports the one failing endpoint
result. -/
theorem claim_C5_witness :
    (run_session 2 true (fun _ => [trFailEx]) orEx).fixing_invocations = 2 ∧
    (run_session 2 true (fun _ => [trFailEx]) orEx).success = true :=
  claim_C5_fix_loop_bounded (fun _ => [trFailEx]) orEx true
    (fun _ => show failedOf [trFailEx] ≠ [] by decide)

end SpecifyCli
